import Mathlib

/-!
Verification of the rule-based order parsing core of the food-sense
repository (src/baseline_order_parser.py and src/order_schema.py).

Strings are modelled as `List Char` (`Str`).  Python string methods used by
the code (`lower`, `strip`, `replace`, `split`, `find`, slicing, `in`) are
embedded as executable Lean functions on `Str`.  ASCII semantics are used
for case folding, whitespace and word characters; all catalog data and
claim inputs are ASCII.  Python `dict`s are embedded as insertion-ordered
association lists (`dictInsert` replaces in place, preserving key order,
exactly like Python dict assignment).  `Decimal` currency amounts are
embedded as `ℚ` (exact on the 2-decimal catalog values involved).
-/

abbrev Str := List Char

/-- Convenience coercion from a Lean string literal to the `List Char` model. -/
def chars (s : String) : Str := s.data

/-- ASCII case folding, as Python `str.lower` acts on ASCII text. -/
def lowerChar (c : Char) : Char :=
  if 65 ≤ c.toNat ∧ c.toNat ≤ 90 then Char.ofNat (c.toNat + 32) else c

def lowerStr (s : Str) : Str := s.map lowerChar

/-- ASCII whitespace, the characters matched by Python `\s` / stripped by `str.strip`. -/
def isSpaceChar (c : Char) : Bool :=
  c = ' ' || c = '\t' || c = '\n' || c = '\r' || c = '\x0b' || c = '\x0c'

/-- Characters matched by Python `\w` (ASCII). -/
def isWordChar (c : Char) : Bool :=
  ('a' ≤ c && c ≤ 'z') || ('A' ≤ c && c ≤ 'Z') || ('0' ≤ c && c ≤ '9') || c = '_'

def isDigitChar (c : Char) : Bool := '0' ≤ c && c ≤ '9'

/-- Python `str.strip()`: drop leading and trailing whitespace. -/
def stripStr (s : Str) : Str :=
  ((s.dropWhile isSpaceChar).reverse.dropWhile isSpaceChar).reverse

/-- Is `pat` a prefix of `s`? -/
def isPre : Str → Str → Bool
  | [], _ => true
  | _ :: _, [] => false
  | a :: as, b :: bs => a = b && isPre as bs

/-- Python substring test `pat in s`. -/
def occursIn (pat : Str) : Str → Bool
  | [] => isPre pat []
  | c :: rest => isPre pat (c :: rest) || occursIn pat rest

/-- Python `s.find(pat)` restricted to successful searches: index of the
first occurrence of `pat` in `s`, if any. -/
def findPos (pat : Str) : Str → Nat → Option Nat
  | [], i => if pat = [] then some i else none
  | c :: rest, i =>
    if isPre pat (c :: rest) then some i else findPos pat rest (i + 1)

/-- Python slice `s[a:b]` (with clamping). -/
def pySlice (s : Str) (a b : Nat) : Str := (s.drop a).take (b - a)

/-- One fuelled step list of Python `str.replace(pat, rep)`: scan left to
right, replacing every non-overlapping occurrence.  Fuel is the input
length; each recursive call strictly shrinks the text, so the fuel never
runs out when initialised with `s.length`. -/
def pyReplaceF : Nat → Str → Str → Str → Str
  | 0, l, _, _ => l
  | fuel + 1, l, pat, rep =>
    match l with
    | [] => []
    | c :: cs =>
      if pat ≠ [] ∧ isPre pat (c :: cs) then
        rep ++ pyReplaceF fuel ((c :: cs).drop pat.length) pat rep
      else
        c :: pyReplaceF fuel cs pat rep

/-- Python `str.replace` (all occurrences, left to right). -/
def pyReplace (s pat rep : Str) : Str := pyReplaceF s.length s pat rep

/-- The ordered typo-fix table of `preprocess_text` (dict literal order). -/
def typoFixes : List (Str × Str) :=
  [ (chars "fires", chars "fries")
  , (chars "mcchiken", chars "mcchicken")
  , (chars "sprit", chars "sprite")
  , (chars "burgr", chars "burger")
  , (chars "mayo", chars "mayonnaise")
  , (chars "w/", chars "with")
  , (chars "&", chars "and")
  , (chars "chk", chars "chicken")
  , (chars "bf", chars "beef")
  , (chars "pep", chars "pepperoni")
  , (chars "dq", chars "dairy queen")
  , (chars "mcd", chars "mcdonalds")
  , (chars "reeses", chars "reese\x27s")
  , (chars "gp", chars "garlic parmesan")
  , (chars "lp", chars "lemon pepper")
  , (chars "shawerma", chars "shawarma")
  , (chars "shwarma", chars "shawarma") ]

def applyFixes (s : Str) : Str :=
  typoFixes.foldl (fun t pr => pyReplace t pr.1 pr.2) s

/-- `re.sub(r'[,;]', ' ', text)`: each comma/semicolon becomes one space. -/
def subPunct (s : Str) : Str :=
  s.map (fun c => if c = ',' ∨ c = ';' then ' ' else c)

/-- `re.sub(r'\s+', ' ', text)`: every maximal whitespace run becomes one space. -/
def collapseWS : Str → Str
  | [] => []
  | [c] => if isSpaceChar c then [' '] else [c]
  | c :: d :: rest =>
    if isSpaceChar c then
      if isSpaceChar d then collapseWS (d :: rest)
      else ' ' :: collapseWS (d :: rest)
    else c :: collapseWS (d :: rest)

/-- `BaselineOrderParser.preprocess_text`: lowercase and strip, apply the
ordered typo-fix table, replace commas/semicolons with spaces, collapse
whitespace runs.  Empty (falsy) input short-circuits to the empty string. -/
def preprocess_text (text : Str) : Str :=
  if text = [] then []
  else collapseWS (subPunct (applyFixes (stripStr (lowerStr text))))

/-! ### Data model (src/order_schema.py) -/

/-- `SizeType` (a closed str-enum in the source). -/
inductive SizeType where
  | SMALL | MEDIUM | LARGE | EXTRA_LARGE
deriving DecidableEq

/-- `.value` of a `SizeType`, used as key into `size_pricing`. -/
def SizeType.val : SizeType → Str
  | .SMALL => chars "Small"
  | .MEDIUM => chars "Medium"
  | .LARGE => chars "Large"
  | .EXTRA_LARGE => chars "Extra Large"

/-- `ModificationType` (a closed str-enum in the source). -/
inductive ModificationType where
  | ADD | REMOVE | SUBSTITUTE | EXTRA | ON_SIDE
deriving DecidableEq

/-- `.value` of a `ModificationType`, used in modification descriptions. -/
def ModificationType.val : ModificationType → Str
  | .ADD => chars "add"
  | .REMOVE => chars "remove"
  | .SUBSTITUTE => chars "substitute"
  | .EXTRA => chars "extra"
  | .ON_SIDE => chars "on_side"

/-- `Modification`: one modification to an order item.  `price_change`
defaults to 0 at extraction time and is assigned during assembly. -/
structure Modification where
  type : ModificationType
  item : Str
  description : Str
  price_change : ℚ := 0
deriving DecidableEq

/-- `MenuItemTemplate`: a catalog item.  `size_pricing` and
`modification_pricing` are insertion-ordered string-keyed maps. -/
structure MenuItemTemplate where
  name : Str
  category : Str
  base_price : ℚ
  available_sizes : List SizeType
  size_pricing : List (Str × ℚ)
  available_modifications : List Str
  modification_pricing : List (Str × ℚ)
  keywords : List Str
deriving DecidableEq

/-- `OrderItem`: one line of an assembled order.  `special_instructions`
is never populated by the parsing core. -/
structure OrderItem where
  name : Str
  quantity : Nat
  size : Option SizeType
  base_price : ℚ
  modifications : List Modification
  special_instructions : Option Str := none
deriving DecidableEq

/-- `OrderItem.total_price`: `(base_price + sum(mod.price_change)) * quantity`.
Python `sum` is a left fold from 0. -/
def OrderItem.total_price (it : OrderItem) : ℚ :=
  (it.base_price + it.modifications.foldl (fun a m => a + m.price_change) 0) * it.quantity

/-- `Order`: the complete assembled order. -/
structure Order where
  items : List OrderItem
  customer_notes : Option Str
  estimated_time : Option Nat := none
deriving DecidableEq

/-- `Order.subtotal`: sum of the line totals (Python `sum`, left fold). -/
def Order.subtotal (o : Order) : ℚ :=
  o.items.foldl (fun a it => a + it.total_price) 0

/-- `Order.tax_amount`: subtotal times the default 8% tax rate. -/
def Order.tax_amount (o : Order) : ℚ := o.subtotal * (8 / 100)

/-- `Order.total_amount`: subtotal plus tax. -/
def Order.total_amount (o : Order) : ℚ := o.subtotal + o.tax_amount

/-- `Order.item_count`: sum of the line quantities. -/
def Order.item_count (o : Order) : Nat :=
  o.items.foldl (fun a it => a + it.quantity) 0

/-- `OrderSchema.QUANTITY_KEYWORDS` (dict literal order). -/
def QUANTITY_KEYWORDS : List (Str × Nat) :=
  [ (chars "one", 1), (chars "two", 2), (chars "three", 3), (chars "four", 4)
  , (chars "five", 5), (chars "six", 6), (chars "seven", 7), (chars "eight", 8)
  , (chars "nine", 9), (chars "ten", 10)
  , (chars "a", 1), (chars "an", 1), (chars "single", 1), (chars "double", 2)
  , (chars "triple", 3) ]

/-! ### Insertion-ordered dictionaries (Python `dict`) -/

/-- Association list model of a Python dict: key order is insertion order. -/
abbrev Dict (α : Type) := List (Str × α)

/-- First (and, by construction, only) binding of a key. -/
def dictLookup {α : Type} : Dict α → Str → Option α
  | [], _ => none
  | (k₀, v₀) :: rest, k => if k₀ = k then some v₀ else dictLookup rest k

/-- Python `d[k] = v`: replace in place if the key exists (keeping its
position), otherwise append. -/
def dictInsert {α : Type} : Dict α → Str → α → Dict α
  | [], k, v => [(k, v)]
  | (k₀, v₀) :: rest, k, v =>
    if k₀ = k then (k₀, v) :: rest else (k₀, v₀) :: dictInsert rest k v

/-- Python `k in d`. -/
def dictHas {α : Type} (d : Dict α) (k : Str) : Bool := (dictLookup d k).isSome

/-- Python `str.split()`: split on whitespace runs, dropping empty pieces. -/
def splitWSAux : Str → Str → List Str
  | [], acc => if acc = [] then [] else [acc.reverse]
  | c :: cs, acc =>
    if isSpaceChar c then
      if acc = [] then splitWSAux cs [] else acc.reverse :: splitWSAux cs []
    else splitWSAux cs (c :: acc)

def splitWS (s : Str) : List Str := splitWSAux s []

/-- Python `' '.join(words)`. -/
def joinSp : List Str → Str
  | [] => []
  | [w] => w
  | w :: ws => w ++ ' ' :: joinSp ws

/-- Python `str.isdigit()` (ASCII) and `int(word)`. -/
def isDigits (s : Str) : Bool := s ≠ [] && s.all isDigitChar

def digitsToNat (s : Str) : Nat := s.foldl (fun a c => a * 10 + (c.toNat - 48)) 0

/-! ### Restaurant keyword table (`BaselineOrderParser.__init__`) -/

/-- `self.restaurant_keywords`, in dict literal order. -/
def restaurant_keywords : List (Str × List Str) :=
  [ (chars "McDonald\x27s",
      [chars "mcdonald", chars "mcchicken", chars "big mac", chars "quarter pounder",
       chars "mcflurry", chars "mcnugget", chars "mcdouble", chars "filet-o-fish",
       chars "happy meal", chars "mcpick", chars "mccafe"])
  , (chars "Starbucks",
      [chars "starbucks", chars "frappuccino", chars "macchiato", chars "americano",
       chars "latte", chars "venti", chars "grande", chars "caramel ribbon",
       chars "pike place", chars "blonde roast", chars "cold brew"])
  , (chars "Taco Bell",
      [chars "taco bell", chars "taco", chars "burrito", chars "quesadilla",
       chars "chalupa", chars "crunchwrap", chars "beefy", chars "nacho",
       chars "doritos locos", chars "mexican pizza", chars "cantina"])
  , (chars "KFC",
      [chars "kfc", chars "colonel", chars "popcorn chicken", chars "famous bowl",
       chars "zinger", chars "hot wings", chars "original recipe", chars "extra crispy",
       chars "chicken bucket"])
  , (chars "Burger King",
      [chars "burger king", chars "whopper", chars "king", chars "chicken fries",
       chars "impossible whopper", chars "croissanwich", chars "onion rings",
       chars "hershey\x27s pie"])
  , (chars "Subway",
      [chars "subway", chars "footlong", chars "italian bmt", chars "meatball marinara",
       chars "turkey breast", chars "spicy italian", chars "veggie delite",
       chars "oven roasted"])
  , (chars "Pizza Hut",
      [chars "pizza hut", chars "pepperoni pizza", chars "meat lovers",
       chars "supreme pizza", chars "stuffed crust", chars "pan pizza",
       chars "thin crust", chars "personal pan"])
  , (chars "Chick-fil-A",
      [chars "chick-fil-a", chars "chick fil a", chars "chicken sandwich",
       chars "waffle fries", chars "nuggets", chars "spicy deluxe",
       chars "original chicken", chars "polynesian sauce"])
  , (chars "Wendy\x27s",
      [chars "wendy", chars "baconator", chars "frosty", chars "spicy chicken",
       chars "dave\x27s single", chars "jr bacon cheeseburger", chars "chicken go wrap"])
  , (chars "Dairy Queen",
      [chars "dairy queen", chars "dq", chars "blizzard", chars "dilly bar",
       chars "hot dog", chars "chicken strip basket", chars "oreo blizzard",
       chars "brazier burger"])
  , (chars "Five Guys",
      [chars "five guys", chars "cajun fries", chars "bacon cheeseburger",
       chars "little cheeseburger", chars "all the way", chars "regular fries"])
  , (chars "Chipotle",
      [chars "chipotle", chars "burrito bowl", chars "barbacoa", chars "carnitas",
       chars "sofritas", chars "guac", chars "cilantro lime", chars "pico de gallo"])
  , (chars "Dunkin\x27",
      [chars "dunkin", chars "donut", chars "iced coffee", chars "coolatta",
       chars "munchkins", chars "bagel", chars "boston kreme", chars "glazed donut"])
  , (chars "Popeyes",
      [chars "popeyes", chars "louisiana", chars "spicy chicken", chars "biscuit",
       chars "red beans", chars "chicken tender", chars "cajun fries"])
  , (chars "Arby\x27s",
      [chars "arby", chars "roast beef", chars "curly fries", chars "beef n cheddar",
       chars "turkey gyro", chars "classic roast beef", chars "horsey sauce"])
  , (chars "Sonic",
      [chars "sonic", chars "cherry limeade", chars "mozzarella sticks",
       chars "corn dog", chars "slush", chars "ocean water", chars "cherry slush"])
  , (chars "Panda Express",
      [chars "panda express", chars "orange chicken", chars "chow mein",
       chars "fried rice", chars "beijing beef", chars "honey walnut shrimp",
       chars "teriyaki chicken"])
  , (chars "Papa John\x27s",
      [chars "papa john", chars "garlic sauce", chars "pepperoni pizza",
       chars "the works", chars "better ingredients", chars "papa\x27s pizza"])
  , (chars "Carl\x27s Jr",
      [chars "carl\x27s jr", chars "famous star", chars "western bacon",
       chars "hand-breaded", chars "six dollar burger", chars "crisscut fries"])
  , (chars "Wingstop",
      [chars "wingstop", chars "lemon pepper", chars "garlic parmesan",
       chars "atomic wings", chars "louisiana rub", chars "boneless wings",
       chars "original hot"]) ]

/-! ### Word-boundary search (`re.search(r'\b' + re.escape(kw) + r'\b', text)`) -/

/-- Is position `p` of `s` occupied by a word character? -/
def wAt (s : Str) (p : Nat) : Bool :=
  match s.get? p with
  | some c => isWordChar c
  | none => false

/-- Python `\b` holds at position `p` of `s`. -/
def wordBoundary (s : Str) (p : Nat) : Bool :=
  (if p = 0 then false else wAt s (p - 1)) != wAt s p

/-- Does the literal `kw` occur in `s` starting at index `i`? -/
def litAt (kw s : Str) (i : Nat) : Bool := isPre kw (s.drop i)

/-- `re.search` for the literal `kw` bracketed by `\b` on both sides. -/
def wbSearch (kw s : Str) : Bool :=
  (List.range (s.length + 1)).any fun i =>
    litAt kw s i && wordBoundary s i && wordBoundary s (i + kw.length)

/-! ### Parser state and catalog indexes (`_build_indexes`) -/

/-- The attributes of a `BaselineOrderParser` instance that parsing reads.
The restaurant keyword table is the static `restaurant_keywords` above. -/
structure ParserSt where
  menu_items : List MenuItemTemplate
  name_to_item : Dict MenuItemTemplate
  keyword_to_item : Dict MenuItemTemplate
  restaurant_to_items : Dict (List MenuItemTemplate)
deriving DecidableEq

/-- `_identify_item_restaurant`: first restaurant (in table order) one of
whose keywords occurs in the lowercased item name; `"General"` otherwise. -/
def identify_item_restaurant (it : MenuItemTemplate) : Str :=
  let rec go : List (Str × List Str) → Str
    | [] => chars "General"
    | (r, kws) :: rest =>
      if kws.any (fun kw => occursIn kw (lowerStr it.name)) then r else go rest
  go restaurant_keywords

/-- Append `it` under key `r` (creating the key at the end if missing),
as `restaurant_to_items[r].append(item)` after a defaulting check. -/
def addToRestaurant (d : Dict (List MenuItemTemplate)) (r : Str)
    (it : MenuItemTemplate) : Dict (List MenuItemTemplate) :=
  if dictHas d r then
    d.map (fun kv => if kv.1 = r then (kv.1, kv.2 ++ [it]) else kv)
  else d ++ [(r, [it])]

/-- The keyword index: for every item (in catalog order), every keyword is
lowercased and assigned; a later item silently overwrites a colliding key. -/
def buildKeywordIndex (items : List MenuItemTemplate) : Dict MenuItemTemplate :=
  items.foldl
    (fun d it => it.keywords.foldl (fun d kw => dictInsert d (lowerStr kw) it) d) []

/-- `_build_indexes` together with `__init__`: construct the parser state. -/
def initState (items : List MenuItemTemplate) : ParserSt :=
  { menu_items := items
  , name_to_item := items.foldl (fun d it => dictInsert d (lowerStr it.name) it) []
  , keyword_to_item := buildKeywordIndex items
  , restaurant_to_items :=
      items.foldl (fun d it => addToRestaurant d (identify_item_restaurant it) it) [] }

/-! ### Restaurant detection (`detect_restaurant`) -/

/-- Score of one restaurant: for each keyword occurring in the text,
`len(keyword)/10`, multiplied by 1.5 when it occurs at a word boundary. -/
def restaurantScore (text : Str) (kws : List Str) : ℚ :=
  kws.foldl
    (fun score kw =>
      if occursIn kw text then
        let ks : ℚ := (kw.length : ℚ) / 10
        let ks := if wbSearch kw text then ks * (3 / 2) else ks
        score + ks
      else score) 0

/-- Python `max(items, key=score)`: first maximum in insertion order. -/
def pickBest : List (Str × ℚ) → Option (Str × ℚ)
  | [] => none
  | (r, v) :: rest =>
    match pickBest rest with
    | none => some (r, v)
    | some (r', v') => if v' > v then some (r', v') else some (r, v)

/-- `detect_restaurant`: best-scoring restaurant (zero scores dropped) and
confidence `min(score/2, 1)`. -/
def detect_restaurant (text : Str) : Option Str × ℚ :=
  let scores := restaurant_keywords.foldl
    (fun acc rk =>
      let s := restaurantScore text rk.2
      if s > 0 then acc ++ [(rk.1, s)] else acc) []
  match pickBest scores with
  | none => (none, 0)
  | some (r, v) => (some r, min (v / 2) 1)

/-- `get_restaurant_menu_items`. -/
def get_restaurant_menu_items (st : ParserSt) (r : Str) : List MenuItemTemplate :=
  (dictLookup st.restaurant_to_items r).getD []

/-! ### Quantity extraction (`extract_quantities`) -/

/-- The vague-quantity table of pattern 2 (dict literal order). -/
def context_quantities : List (Str × Nat) :=
  [ (chars "couple", 2), (chars "pair", 2), (chars "few", 2)
  , (chars "some", 1), (chars "bunch", 3), (chars "several", 3)
  , (chars "half dozen", 6), (chars "dozen", 12) ]

/-- Best keyword of the index occurring in `search_text`, preferring the
longest (strict improvement, so the first of equal lengths wins). -/
def bestKeywordIn (ktI : Dict MenuItemTemplate) (search_text : Str) : Option Str :=
  (ktI.foldl
    (fun (best : Option Str × Nat) kv =>
      if occursIn kv.1 search_text ∧ kv.1.length > best.2
      then (some kv.1, kv.1.length) else best)
    (none, 0)).1

/-- One step of the numeric/word pass of `extract_quantities` at word
index `i`. -/
def quantityStep1 (st : ParserSt) (words : List Str)
    (quantities : Dict Nat) (i : Nat) : Dict Nat :=
  let word := words.getD i []
  let qty : Option Nat :=
    if isDigits word then some (digitsToNat word)
    else dictLookup QUANTITY_KEYWORDS word
  match qty with
  | some q =>
    if q > 0 ∧ i + 1 < words.length then
      let window := (words.drop (i + 1)).take (min (i + 4) words.length - (i + 1))
      let search_text := lowerStr (joinSp window)
      match bestKeywordIn st.keyword_to_item search_text with
      | some bk => dictInsert quantities bk q
      | none => quantities
    else quantities
  | none => quantities

/-- One step of the implicit vague-quantity pass of `extract_quantities`. -/
def quantityStep2 (st : ParserSt) (text : Str)
    (quantities : Dict Nat) (cq : Str × Nat) : Dict Nat :=
  if occursIn cq.1 text then
    let pos := (findPos cq.1 text 0).getD 0
    let before_after := pySlice text (pos - 20) (pos + 50)
    match st.keyword_to_item.find?
        (fun kv => occursIn kv.1 before_after ∧ ¬ dictHas quantities kv.1) with
    | some kv => dictInsert quantities kv.1 cq.2
    | none => quantities
  else quantities

/-- `extract_quantities`: the numeric/word pass followed by the implicit
vague-quantity pass. -/
def extract_quantities (st : ParserSt) (text : Str) : Dict Nat :=
  let words := splitWS text
  context_quantities.foldl (quantityStep2 st text)
    ((List.range words.length).foldl (quantityStep1 st words) [])

/-! ### Size extraction (`extract_sizes`) -/

/-- The `size_patterns` table (dict literal order). -/
def size_patterns : List (Str × SizeType) :=
  [ (chars "small", .SMALL), (chars "sm", .SMALL), (chars "mini", .SMALL)
  , (chars "medium", .MEDIUM), (chars "med", .MEDIUM), (chars "m", .MEDIUM)
  , (chars "regular", .MEDIUM)
  , (chars "large", .LARGE), (chars "lg", .LARGE), (chars "l", .LARGE)
  , (chars "big", .LARGE)
  , (chars "extra large", .EXTRA_LARGE), (chars "xl", .EXTRA_LARGE)
  , (chars "jumbo", .EXTRA_LARGE), (chars "huge", .EXTRA_LARGE)
  , (chars "super", .EXTRA_LARGE) ]

/-- Best keyword whose item actually supports the detected size
(the inner candidate loop of `extract_sizes`). -/
def bestSizedKeywordIn (ktI : Dict MenuItemTemplate) (search_text : Str)
    (sf : SizeType) : Option Str :=
  (ktI.foldl
    (fun (best : Option Str × Nat) kv =>
      if occursIn kv.1 search_text ∧ kv.2.available_sizes ≠ [] ∧
         sf ∈ kv.2.available_sizes ∧ kv.1.length > best.2
      then (some kv.1, kv.1.length) else best)
    (none, 0)).1

/-- One step of `extract_sizes` at word index `i`: find a one- or
two-word size alias at `i`, then bind it to the best nearby keyword whose
item supports the size (looking ahead first, then behind). -/
def sizesStep (st : ParserSt) (words : List Str)
    (sizes : Dict SizeType) (i : Nat) : Dict SizeType :=
  let word := words.getD i []
  let size0 := dictLookup size_patterns word
  let size_found :=
    if i + 1 < words.length then
      match dictLookup size_patterns (word ++ ' ' :: words.getD (i + 1) []) with
      | some s => some s
      | none => size0
    else size0
  match size_found with
  | none => sizes
  | some sf =>
    let range1 := (words.drop (i + 1)).take (min (i + 4) words.length - (i + 1))
    let range2 := (words.drop (i - 3)).take (i - (i - 3))
    match bestSizedKeywordIn st.keyword_to_item (lowerStr (joinSp range1)) sf with
    | some bk => dictInsert sizes bk sf
    | none =>
      match bestSizedKeywordIn st.keyword_to_item (lowerStr (joinSp range2)) sf with
      | some bk => dictInsert sizes bk sf
      | none => sizes

/-- `extract_sizes`: scan words for size aliases and bind each to a
validated nearby keyword. -/
def extract_sizes (st : ParserSt) (text : Str) : Dict SizeType :=
  let words := splitWS text
  (List.range words.length).foldl (sizesStep st words) []

/-! ### A small backtracking regex engine

Embeds the `re` patterns used by the modification extractor.  Matching is
depth-first backtracking exactly as in CPython's engine: alternation tries
the left branch first, greedy quantifiers try longer matches first, lazy
quantifiers shorter ones.  All modification patterns are compiled with
`re.IGNORECASE`, so literal characters compare case-folded. -/

inductive Re where
  | eps
  | lit (c : Char)
  | cls (p : Char → Bool)
  | seq (a b : Re)
  | alt (a b : Re)
  | star (greedy : Bool) (r : Re)
  | opt (greedy : Bool) (r : Re)
  | group (idx : Nat) (r : Re)
  | look (r : Re)
  | wordB
  | eos

/-- Capture assignments: (group index, start, stop). -/
abbrev Caps := List (Nat × Nat × Nat)

def setCap : Caps → Nat → Nat → Nat → Caps
  | [], i, a, b => [(i, a, b)]
  | (j, x, y) :: rest, i, a, b =>
    if j = i then (j, a, b) :: rest else (j, x, y) :: setCap rest i a b

def getCap : Caps → Nat → Option (Nat × Nat)
  | [], _ => none
  | (j, x, y) :: rest, i => if j = i then some (x, y) else getCap rest i

/-- CPS backtracking matcher.  The fuel bounds recursion depth (pattern
nesting plus one level per quantifier iteration); it is initialised far
above what any pattern here can consume, so exhaustion never occurs on the
inputs considered.  A quantifier iteration that consumes no input is
pruned, as CPython stops repeating on an empty match. -/
def mrun : Nat → Re → Str → Nat → Caps →
    (Nat → Caps → Option (Nat × Caps)) → Option (Nat × Caps)
  | 0, _, _, _, _, _ => none
  | fuel + 1, re, s, pos, caps, k =>
    match re with
    | .eps => k pos caps
    | .lit c =>
      match s.get? pos with
      | some d => if lowerChar d = lowerChar c then k (pos + 1) caps else none
      | none => none
    | .cls p =>
      match s.get? pos with
      | some d => if p d then k (pos + 1) caps else none
      | none => none
    | .seq a b => mrun fuel a s pos caps (fun p c => mrun fuel b s p c k)
    | .alt a b =>
      match mrun fuel a s pos caps k with
      | some res => some res
      | none => mrun fuel b s pos caps k
    | .star greedy r =>
      if greedy then
        match mrun fuel r s pos caps
            (fun p c => if p = pos then none else mrun fuel (.star true r) s p c k) with
        | some res => some res
        | none => k pos caps
      else
        match k pos caps with
        | some res => some res
        | none =>
          mrun fuel r s pos caps
            (fun p c => if p = pos then none else mrun fuel (.star false r) s p c k)
    | .opt greedy r =>
      if greedy then
        match mrun fuel r s pos caps k with
        | some res => some res
        | none => k pos caps
      else
        match k pos caps with
        | some res => some res
        | none => mrun fuel r s pos caps k
    | .group i r => mrun fuel r s pos caps (fun p c => k p (setCap c i pos p))
    | .look r =>
      match mrun fuel r s pos caps (fun p c => some (p, c)) with
      | some (_, c2) => k pos c2
      | none => none
    | .wordB => if wordBoundary s pos then k pos caps else none
    | .eos =>
      if pos = s.length ∨ (pos + 1 = s.length ∧ s.get? pos = some '\n')
      then k pos caps else none

def rcat : List Re → Re
  | [] => .eps
  | [r] => r
  | r :: rs => .seq r (rcat rs)

def rstr (s : String) : Re := rcat (s.data.map Re.lit)

def ralt : List Re → Re
  | [] => .eps
  | [r] => r
  | r :: rs => .alt r (ralt rs)

/-- `X+` as `X X*`; likewise `X+?` as `X X*?`. -/
def rplus (greedy : Bool) (r : Re) : Re := .seq r (.star greedy r)

def ws1 : Re := rplus true (.cls isSpaceChar)
def wplus : Re := rplus true (.cls isWordChar)
def wOrS (c : Char) : Bool := isWordChar c || isSpaceChar c
def wOrSOrComma (c : Char) : Bool := isWordChar c || isSpaceChar c || c = ','

/-- `\w+(?:\s+\w+)*`. -/
def phraseRe : Re := .seq wplus (.star true (.seq ws1 wplus))

/-- Matcher fuel: far beyond the depth any of these patterns can need. -/
def mfuel (s : Str) : Nat := 2000 + 20 * s.length

structure MatchRes where
  mstart : Nat
  mend : Nat
  caps : Caps

def tryMatch (re : Re) (s : Str) (pos : Nat) : Option (Nat × Caps) :=
  mrun (mfuel s) re s pos [] (fun p c => some (p, c))

/-- `re.finditer`: leftmost non-overlapping matches, resuming after each
match (advancing one position after an empty match, as CPython does). -/
def findIterAux (re : Re) (s : Str) : Nat → Nat → List MatchRes
  | _, 0 => []
  | pos, steps + 1 =>
    if pos > s.length then []
    else
      match tryMatch re s pos with
      | some (e, caps) =>
        ⟨pos, e, caps⟩ :: findIterAux re s (if e > pos then e else pos + 1) steps
      | none => findIterAux re s (pos + 1) steps

def findIter (re : Re) (s : Str) : List MatchRes := findIterAux re s 0 (s.length + 2)

/-- `match.group(i)` as a string (empty for an unset group). -/
def groupStr (s : Str) (m : MatchRes) (i : Nat) : Str :=
  match getCap m.caps i with
  | some (a, b) => pySlice s a b
  | none => []

/-- `re.split(sep, s)`: the pieces between the separator matches. -/
def splitRe (re : Re) (s : Str) : List Str :=
  let rec go (start : Nat) : List MatchRes → List Str
    | [] => [pySlice s start s.length]
    | m :: rest => pySlice s start m.mstart :: go m.mend rest
  go 0 (findIter re s)

/-! ### Modification extraction (`extract_modifications`)

The Python code accumulates all modifications under the single dict key
`'all'`; the dict is embedded as that one list. -/

/-- `_add_modification`: strip the article substrings `"the "`, `"some "`,
`"a "` (anywhere, via `str.replace`), then record the target unless it is
too short or a case-insensitive duplicate of an already recorded target. -/
def add_modification (raw : Str) (ty : ModificationType)
    (mods : List Modification) : List Modification :=
  let mod_item := stripStr (pyReplace (pyReplace (pyReplace raw
      (chars "the ") []) (chars "some ") []) (chars "a ") [])
  if mod_item ≠ [] ∧ mod_item.length > 1 then
    if lowerStr mod_item ∈ mods.map (fun m => lowerStr m.item) then mods
    else mods ++ [{ type := ty, item := mod_item
                  , description := ty.val ++ ' ' :: mod_item, price_change := 0 }]
  else mods

/-- `\bno\s+(\w+(?:\s+\w+)*)\s+no\s+((?:\w+(?:\s+\w+)*(?:\s+no\s+\w+(?:\s+\w+)*)*)+)` -/
def seqNoRe : Re :=
  rcat [.wordB, rstr "no", ws1, .group 1 phraseRe, ws1, rstr "no", ws1,
        .group 2 (rplus true (.seq phraseRe
          (.star true (rcat [ws1, rstr "no", ws1, phraseRe]))))]

/-- The same chain pattern for `extra`. -/
def seqExtraRe : Re :=
  rcat [.wordB, rstr "extra", ws1, .group 1 phraseRe, ws1, rstr "extra", ws1,
        .group 2 (rplus true (.seq phraseRe
          (.star true (rcat [ws1, rstr "extra", ws1, phraseRe]))))]

/-- `re.split` separators `\s+no\s+` and `\s+extra\s+`.  The source
compiles these without `re.IGNORECASE`; they are applied to group-2 text of
an ignore-case match, which on the lowercased parse input is already all
lowercase, where the engine's case-folded literal comparison coincides. -/
def sepNoRe : Re := rcat [ws1, rstr "no", ws1]
def sepExtraRe : Re := rcat [ws1, rstr "extra", ws1]

/-- One chain family of `_extract_sequential_modifications`: record group 1,
then split group 2 on the connector and record each piece. -/
def seqChainPass (re sep : Re) (ty : ModificationType) (text : Str)
    (mods : List Modification) : List Modification :=
  (findIter re text).foldl
    (fun mods m =>
      let mods := add_modification (stripStr (groupStr text m 1)) ty mods
      (splitRe sep (groupStr text m 2)).foldl
        (fun mods piece =>
          let piece := stripStr piece
          if piece ≠ [] ∧ piece.length > 1 then add_modification piece ty mods
          else mods)
        mods)
    mods

/-- `_extract_sequential_modifications`: the `no … no …` chains, then the
`extra … extra …` chains. -/
def extract_sequential_modifications (text : Str)
    (mods : List Modification) : List Modification :=
  seqChainPass seqExtraRe sepExtraRe .EXTRA text
    (seqChainPass seqNoRe sepNoRe .REMOVE text mods)

/-- The ordered `modification_patterns` list of the standard pass. -/
def modification_patterns : List (Re × ModificationType) :=
  [ (rcat [.wordB, rstr "no", ws1, .group 1 wplus], .REMOVE)
  , (rcat [.wordB, rstr "extra", ws1, .group 1 wplus], .EXTRA)
  , (rcat [.wordB, rstr "with", ws1, .group 1 (rplus false (.cls wOrS)),
      .look (.seq ws1 (ralt [rstr "large", rstr "medium", rstr "small",
        rstr "and", .cls isDigitChar, .eos]))], .ADD)
  , (rcat [.wordB, rstr "with", ws1, .group 1 (rplus true (.cls wOrS)), .eos], .ADD)
  , (rcat [.wordB, rstr "add", ws1, .group 1 (rplus false (.cls wOrS)),
      .look (.seq ws1 (ralt [rstr "large", rstr "medium", rstr "small",
        rstr "extra", rstr "no", rstr "and", .cls isDigitChar, .eos]))], .ADD)
  , (rcat [.wordB, rstr "include", ws1, .group 1 (rplus false (.cls wOrS)),
      .look (.seq ws1 (ralt [rstr "large", rstr "medium", rstr "small",
        rstr "extra", rstr "no", rstr "and", .cls isDigitChar, .eos]))], .ADD)
  , (rcat [.wordB, rstr "without", ws1, .group 1 wplus], .REMOVE)
  , (rcat [.wordB, rstr "hold", ws1, .opt true (.seq (rstr "the") ws1),
      .group 1 wplus], .REMOVE)
  , (rcat [.wordB, rstr "skip", ws1, .opt true (.seq (rstr "the") ws1),
      .group 1 wplus], .REMOVE)
  , (rcat [.group 1 (rplus false (.cls wOrSOrComma)), ws1, rstr "on", ws1,
      rstr "the", ws1, rstr "side"], .ON_SIDE)
  , (rcat [.wordB, rstr "side", ws1, rstr "of", ws1,
      .group 1 (rplus true (.cls wOrS))], .ON_SIDE) ]

/-- The fixed condiment list of `_extract_standalone_condiments`. -/
def common_condiments : List Str :=
  [ chars "mayo", chars "mayonnaise", chars "ketchup", chars "mustard"
  , chars "ranch", chars "bbq sauce", chars "hot sauce", chars "tahini"
  , chars "garlic sauce", chars "honey mustard", chars "blue cheese"
  , chars "marinara", chars "special sauce", chars "buffalo sauce" ]

/-- `_extract_standalone_condiments`: a condiment mentioned in the text and
not contained in any recorded target becomes an `add`. -/
def extract_standalone_condiments (text : Str)
    (mods : List Modification) : List Modification :=
  common_condiments.foldl
    (fun mods c =>
      if occursIn c text ∧ ¬ mods.any (fun m => occursIn c m.item) then
        mods ++ [{ type := .ADD, item := c
                 , description := chars "add " ++ c, price_change := 0 }]
      else mods)
    mods

/-- `extract_modifications`: sequential pass, then the standard pattern
pass, then the standalone-condiment pass. -/
def extract_modifications (text : Str) : List Modification :=
  let mods := extract_sequential_modifications text []
  let mods := modification_patterns.foldl
    (fun mods pr =>
      (findIter pr.1 text).foldl
        (fun mods m =>
          let mod_text := stripStr (groupStr text m 1)
          if mod_text = [] then mods else add_modification mod_text pr.2 mods)
        mods)
    mods
  extract_standalone_condiments text mods

/-! ### Item matching (`find_menu_items`) -/

/-- Tier 1: exact multi-word keyword substring matches, confidence 0.95. -/
def findPass1 (sk : Dict MenuItemTemplate) (text : Str)
    (found : List (MenuItemTemplate × ℚ)) : List (MenuItemTemplate × ℚ) :=
  sk.foldl
    (fun found kv =>
      if (splitWS kv.1).length > 1 then
        if occursIn kv.1 text then
          if ¬ found.any (fun p => p.1 = kv.2) then found ++ [(kv.2, 95 / 100)]
          else found
        else found
      else found)
    found

/-- Tier 2: exact single-word keyword at a word boundary, confidence 0.9. -/
def findPass2 (sk : Dict MenuItemTemplate) (text : Str)
    (found : List (MenuItemTemplate × ℚ)) : List (MenuItemTemplate × ℚ) :=
  sk.foldl
    (fun found kv =>
      if (splitWS kv.1).length = 1 then
        if wbSearch kv.1 text then
          if ¬ found.any (fun p => p.1 = kv.2) then found ++ [(kv.2, 9 / 10)]
          else found
        else found
      else found)
    found

/-- Tier 3 fuzzy fallback, confidence 0.6.  The Python threshold
`len(a) >= len(b) * 0.6` is modelled exactly as `10*len(a) ≥ 6*len(b)`;
for the short keyword lengths involved the float product rounds to the
same side of every integer. -/
def findPass3 (sk : Dict MenuItemTemplate) (words : List Str)
    (found : List (MenuItemTemplate × ℚ)) : List (MenuItemTemplate × ℚ) :=
  sk.foldl
    (fun found kv =>
      if ¬ found.any (fun p => p.1 = kv.2) then
        if words.any (fun w =>
            w.length ≥ 4 ∧ kv.1.length ≥ 4 ∧
            ((occursIn w kv.1 ∧ 10 * w.length ≥ 6 * kv.1.length) ∨
             (occursIn kv.1 w ∧ 10 * kv.1.length ≥ 6 * w.length)))
        then found ++ [(kv.2, 6 / 10)] else found
      else found)
    found

/-- Deduplicate by item name (dict insertion order), keeping the highest
confidence seen for a name. -/
def dedupByName (found : List (MenuItemTemplate × ℚ)) :
    List (MenuItemTemplate × ℚ) :=
  (found.foldl
    (fun (u : Dict (MenuItemTemplate × ℚ)) p =>
      match dictLookup u p.1.name with
      | none => u ++ [(p.1.name, p)]
      | some q => if p.2 > q.2 then dictInsert u p.1.name p else u)
    []).map Prod.snd

/-- Stable insertion into a descending-by-confidence list (a new element
goes after all elements of equal confidence), modelling Python's stable
`list.sort(key=confidence, reverse=True)`. -/
def insertDesc (x : MenuItemTemplate × ℚ) :
    List (MenuItemTemplate × ℚ) → List (MenuItemTemplate × ℚ)
  | [] => [x]
  | y :: ys => if x.2 > y.2 then x :: y :: ys else y :: insertDesc x ys

def sortDesc (l : List (MenuItemTemplate × ℚ)) : List (MenuItemTemplate × ℚ) :=
  l.foldl (fun acc x => insertDesc x acc) []

/-- `find_menu_items`: three tiers (tier 3 only when tiers 1–2 found
nothing and no restaurant scoping applies), then name-dedup and a stable
descending sort by confidence. -/
def find_menu_items (st : ParserSt) (text : Str)
    (restaurant_items : Option (List MenuItemTemplate)) :
    List (MenuItemTemplate × ℚ) :=
  let search_items := restaurant_items.getD st.menu_items
  let sk := buildKeywordIndex search_items
  let f := findPass1 sk text []
  let f := findPass2 sk text f
  let f :=
    if f = [] ∧ restaurant_items = none then findPass3 sk (splitWS text) f else f
  sortDesc (dedupByName f)

/-! ### Order assembly (`parse_order`) -/

/-- The scoping decision of `parse_order`: restrict to the detected
restaurant's items exactly when one was detected with confidence > 0.3. -/
def scopedItems (st : ParserSt) (clean : Str) :
    Option (List MenuItemTemplate) :=
  match detect_restaurant clean with
  | (some r, conf) =>
    if conf > 3 / 10 then some (get_restaurant_menu_items st r) else none
  | (none, _) => none

/-- The final `price_change` observed on a shared `Modification` object.
The Python loop executes `mod.price_change = item.modification_pricing
.get(mod.item.lower(), 0)` once for every matched item the modification is
valid for, mutating the one object that every order line's modification
list aliases; the value observable on the returned `Order` is therefore
the assignment made by the last such item (or the extraction-time value
when no matched item accepts it). -/
def finalModPrice (foundItems : List MenuItemTemplate) (m : Modification) : ℚ :=
  match (foundItems.filter
      (fun mi => lowerStr m.item ∈ mi.available_modifications.map lowerStr)).getLast? with
  | some mi => (dictLookup mi.modification_pricing (lowerStr m.item)).getD 0
  | none => m.price_change

/-- `quantity = 1; for kw in item.keywords: if kw in d: take d[kw]; break`. -/
def firstKeyLookup {α : Type} : List Str → Dict α → Option α
  | [], _ => none
  | k :: ks, d =>
    match dictLookup d k with
    | some v => some v
    | none => firstKeyLookup ks d

/-- `parse_order`: normalize, detect and scope, extract attributes, match
items, and assemble the priced order. -/
def parse_order (st : ParserSt) (text : Str) : Order :=
  let clean := preprocess_text text
  let detected := (detect_restaurant clean).1
  let scopedSub := scopedItems st clean
  let quantities := extract_quantities st clean
  let sizes := extract_sizes st clean
  let mods := extract_modifications clean
  let found := find_menu_items st clean scopedSub
  let foundItems := found.map Prod.fst
  let finalMods := mods.map
    (fun m => { m with price_change := finalModPrice foundItems m })
  let order_items := found.map (fun p =>
    let mi := p.1
    let quantity := (firstKeyLookup mi.keywords quantities).getD 1
    let size := firstKeyLookup mi.keywords sizes
    let base_price := mi.base_price +
      (match size with
       | some s => (dictLookup mi.size_pricing s.val).getD 0
       | none => 0)
    { name := mi.name, quantity := quantity, size := size
    , base_price := base_price
    , modifications := finalMods.filter
        (fun m => lowerStr m.item ∈ mi.available_modifications.map lowerStr) })
  let notes0 : Option Str := if text.length > 100 then some text else none
  let customer_notes :=
    match detected with
    | some r =>
      let rn := chars "Restaurant: " ++ r
      some (match notes0 with
            | none => rn
            | some n => rn ++ '\n' :: n)
    | none => notes0
  { items := order_items, customer_notes := customer_notes }

/-- `parse_order` with the instance state threaded explicitly.  The body
of the Python method contains no assignment to any attribute of `self`
(the indexes are written only in `_build_indexes`, called from
`__init__`), so the state a call leaves behind is the state it received. -/
def parse_order_st (st : ParserSt) (text : Str) : Order × ParserSt :=
  (parse_order st text, st)


/-! ### Concrete fixture catalogs used by witnesses and counterexamples -/

/-- Two items that both accept a `cheese` modification at different
configured price deltas. -/
def itemFoo : MenuItemTemplate :=
  { name := chars "Foo Burger", category := chars "Main Dish", base_price := 5
  , available_sizes := [], size_pricing := []
  , available_modifications := [chars "cheese"]
  , modification_pricing := [(chars "cheese", 1 / 2)]
  , keywords := [chars "fooburger"] }

def itemBar : MenuItemTemplate :=
  { name := chars "Bar Wrap", category := chars "Main Dish", base_price := 4
  , available_sizes := [], size_pricing := []
  , available_modifications := [chars "cheese"]
  , modification_pricing := [(chars "cheese", 1)]
  , keywords := [chars "barwrap"] }

/-- Two items sharing the keyword `zcola`; only the later one has size
variants. -/
def itemX : MenuItemTemplate :=
  { name := chars "Xsoda Drink", category := chars "Beverage", base_price := 3
  , available_sizes := [], size_pricing := []
  , available_modifications := [], modification_pricing := []
  , keywords := [chars "zcola", chars "xsoda"] }

def itemY : MenuItemTemplate :=
  { name := chars "Ycola Pop", category := chars "Beverage", base_price := 4
  , available_sizes := [.LARGE], size_pricing := [(chars "Large", 1)]
  , available_modifications := [], modification_pricing := []
  , keywords := [chars "zcola"] }

/-- An item whose name and keyword trigger McDonald's detection. -/
def itemBigMac : MenuItemTemplate :=
  { name := chars "Big Mac", category := chars "Main Dish", base_price := 5
  , available_sizes := [], size_pricing := []
  , available_modifications := [chars "pickles"], modification_pricing := []
  , keywords := [chars "big mac"] }

/-- A sized item with a collision-free keyword. -/
def itemZfries : MenuItemTemplate :=
  { name := chars "Zfries", category := chars "Side", base_price := 3
  , available_sizes := [.LARGE], size_pricing := [(chars "Large", 1 / 2)]
  , available_modifications := [chars "salt"]
  , modification_pricing := [(chars "salt", 0)]
  , keywords := [chars "zfries"] }

/-! ### Helper lemmas: case folding -/

/- Rational arithmetic from Batteries is marked irreducible, which only
affects elaborator-side evaluation; re-enable it so that concrete orders
evaluate. -/
attribute [local semireducible] Rat.add Rat.mul Rat.sub Rat.inv

theorem lowerChar_toNat (c : Char) (h : 65 ≤ c.toNat ∧ c.toNat ≤ 90) :
    (lowerChar c).toNat = c.toNat + 32 := by
  have hv : Char.isValidCharNat (c.toNat + 32) := Or.inl (by omega)
  simp only [lowerChar, if_pos h, Char.ofNat, dif_pos hv]
  rfl

theorem lowerChar_idem (c : Char) : lowerChar (lowerChar c) = lowerChar c := by
  by_cases h : 65 ≤ c.toNat ∧ c.toNat ≤ 90
  · have ht := lowerChar_toNat c h
    have hnot : ¬ (65 ≤ (lowerChar c).toNat ∧ (lowerChar c).toNat ≤ 90) := by omega
    exact if_neg hnot
  · have h2 : lowerChar c = c := if_neg h
    rw [h2]
    exact h2

theorem map_eq_self {α : Type} {f : α → α} :
    ∀ {l : List α}, (∀ c ∈ l, f c = c) → l.map f = l
  | [], _ => rfl
  | c :: cs, h => by
    simp only [List.map_cons, List.cons.injEq]
    exact ⟨h c (List.mem_cons_self c cs),
           map_eq_self (fun x hx => h x (List.mem_cons_of_mem c hx))⟩

theorem lowerStr_idem (s : Str) : lowerStr (lowerStr s) = lowerStr s := by
  simp only [lowerStr, List.map_map]
  exact List.map_congr_left (fun c _ => lowerChar_idem c)

/-! ### Helper lemmas: the normalizer stages -/

theorem occursIn_cons_false {pat : Str} {c : Char} {cs : Str}
    (h : occursIn pat (c :: cs) = false) :
    isPre pat (c :: cs) = false ∧ occursIn pat cs = false := by
  have := h
  simp only [occursIn, Bool.or_eq_false_iff] at this
  exact this

theorem pyReplaceF_no_occur : ∀ (fuel : Nat) (l pat rep : Str),
    occursIn pat l = false → pyReplaceF fuel l pat rep = l
  | 0, l, _, _, _ => rfl
  | fuel + 1, [], pat, rep, _ => rfl
  | fuel + 1, c :: cs, pat, rep, h => by
    obtain ⟨h1, h2⟩ := occursIn_cons_false h
    have hcond : ¬ (pat ≠ [] ∧ isPre pat (c :: cs) = true) := by simp [h1]
    simp only [pyReplaceF, if_neg hcond, List.cons.injEq]
    exact ⟨trivial, pyReplaceF_no_occur fuel cs pat rep h2⟩

theorem pyReplace_no_occur (l pat rep : Str) (h : occursIn pat l = false) :
    pyReplace l pat rep = l :=
  pyReplaceF_no_occur _ l pat rep h

theorem applyFixes_no_occur :
    ∀ (fixes : List (Str × Str)) (s : Str),
      (∀ pr ∈ fixes, occursIn pr.1 s = false) →
      fixes.foldl (fun t pr => pyReplace t pr.1 pr.2) s = s
  | [], _, _ => rfl
  | pr :: rest, s, h => by
    have h1 : pyReplace s pr.1 pr.2 = s :=
      pyReplace_no_occur _ _ _ (h pr (List.mem_cons_self pr rest))
    simp only [List.foldl_cons, h1]
    exact applyFixes_no_occur rest s (fun q hq => h q (List.mem_cons_of_mem pr hq))

theorem mem_pyReplaceF : ∀ (fuel : Nat) (l pat rep : Str) (c : Char),
    c ∈ pyReplaceF fuel l pat rep → c ∈ l ∨ c ∈ rep
  | 0, l, _, _, c, h => Or.inl h
  | fuel + 1, [], pat, rep, c, h => absurd h (List.not_mem_nil c)
  | fuel + 1, x :: xs, pat, rep, c, h => by
    by_cases hp : pat ≠ [] ∧ isPre pat (x :: xs) = true
    · simp only [pyReplaceF, if_pos hp, List.mem_append] at h
      rcases h with h | h
      · exact Or.inr h
      · rcases mem_pyReplaceF fuel _ pat rep c h with h' | h'
        · exact Or.inl (List.mem_of_mem_drop h')
        · exact Or.inr h'
    · simp only [pyReplaceF, if_neg hp, List.mem_cons] at h
      rcases h with h | h
      · exact Or.inl (h ▸ List.mem_cons_self x xs)
      · rcases mem_pyReplaceF fuel xs pat rep c h with h' | h'
        · exact Or.inl (List.mem_cons_of_mem x h')
        · exact Or.inr h'

theorem mem_pyReplace {l pat rep : Str} {c : Char}
    (h : c ∈ pyReplace l pat rep) : c ∈ l ∨ c ∈ rep :=
  mem_pyReplaceF _ l pat rep c h

theorem mem_stripStr {s : Str} {c : Char} (h : c ∈ stripStr s) : c ∈ s := by
  simp only [stripStr, List.mem_reverse] at h
  have h1 := (List.dropWhile_sublist (l := (s.dropWhile isSpaceChar).reverse)
    (p := isSpaceChar)).mem h
  rw [List.mem_reverse] at h1
  exact (List.dropWhile_sublist (l := s) (p := isSpaceChar)).mem h1

theorem mem_collapseWS : ∀ {s : Str} {c : Char},
    c ∈ collapseWS s → c = ' ' ∨ c ∈ s := by
  intro s
  induction s using collapseWS.induct with
  | case1 => intro c h; exact absurd h (List.not_mem_nil c)
  | case2 d hd =>
    intro c h
    simp only [collapseWS, if_pos hd, List.mem_singleton] at h
    exact Or.inl h
  | case3 d hd =>
    intro c h
    simp only [collapseWS, if_neg hd] at h
    exact Or.inr h
  | case4 x d rest hx hd ih =>
    intro c h
    simp only [collapseWS, if_pos hx, if_pos hd] at h
    rcases ih h with h' | h'
    · exact Or.inl h'
    · exact Or.inr (List.mem_cons_of_mem x h')
  | case5 x d rest hx hd ih =>
    intro c h
    simp only [collapseWS, if_pos hx, if_neg hd, List.mem_cons] at h
    rcases h with h | h
    · exact Or.inl h
    · rcases ih h with h' | h'
      · exact Or.inl h'
      · exact Or.inr (List.mem_cons_of_mem x h')
  | case6 x d rest hx ih =>
    intro c h
    simp only [collapseWS, if_neg hx, List.mem_cons] at h
    rcases h with h | h
    · exact Or.inr (h ▸ List.mem_cons_self x _)
    · rcases ih h with h' | h'
      · exact Or.inl h'
      · exact Or.inr (List.mem_cons_of_mem x h')

theorem collapseWS_cons_nonspace (c : Char) (hc : ¬ isSpaceChar c = true) :
    ∀ s : Str, collapseWS (c :: s) = c :: collapseWS s
  | [] => by simp only [collapseWS, if_neg hc]
  | d :: rest => by simp only [collapseWS, if_neg hc]

theorem collapseWS_idem : ∀ s : Str, collapseWS (collapseWS s) = collapseWS s := by
  intro s
  induction s using collapseWS.induct with
  | case1 => rfl
  | case2 d hd => simp only [collapseWS, if_pos hd]; rfl
  | case3 d hd => simp only [collapseWS, if_neg hd]
  | case4 x d rest hx hd ih => simp only [collapseWS, if_pos hx, if_pos hd, ih]
  | case5 x d rest hx hd ih =>
    have hX : collapseWS (d :: rest) = d :: collapseWS rest :=
      collapseWS_cons_nonspace d hd rest
    have hsp : isSpaceChar ' ' = true := rfl
    simp only [collapseWS, if_pos hx, if_neg hd]
    rw [hX]
    simp only [collapseWS, if_pos hsp, if_neg hd]
    rw [← hX, ih]
  | case6 x d rest hx ih =>
    simp only [collapseWS, if_neg hx]
    rw [collapseWS_cons_nonspace x hx, ih]

theorem mem_subPunct {s : Str} {c : Char} (h : c ∈ subPunct s) :
    c = ' ' ∨ c ∈ s := by
  simp only [subPunct, List.mem_map] at h
  obtain ⟨d, hd, hfd⟩ := h
  by_cases hcomma : d = ',' ∨ d = ';'
  · rw [if_pos hcomma] at hfd
    exact Or.inl hfd.symm
  · rw [if_neg hcomma] at hfd
    exact Or.inr (hfd ▸ hd)

theorem subPunct_no_punct (s : Str) : ∀ c ∈ subPunct s, ¬ (c = ',' ∨ c = ';') := by
  intro c h
  simp only [subPunct, List.mem_map] at h
  obtain ⟨d, _, hfd⟩ := h
  by_cases hcomma : d = ',' ∨ d = ';'
  · rw [if_pos hcomma] at hfd
    subst hfd
    rintro (h | h) <;> exact absurd h (by decide)
  · rw [if_neg hcomma] at hfd
    exact hfd ▸ hcomma

theorem subPunct_eq_self {s : Str} (h : ∀ c ∈ s, ¬ (c = ',' ∨ c = ';')) :
    subPunct s = s :=
  map_eq_self (fun c hc => if_neg (h c hc))

theorem lowerStr_eq_self {s : Str} (h : ∀ c ∈ s, lowerChar c = c) :
    lowerStr s = s :=
  map_eq_self h

theorem mem_foldl_pyReplace :
    ∀ (fixes : List (Str × Str)) (s : Str) (c : Char),
      c ∈ fixes.foldl (fun t pr => pyReplace t pr.1 pr.2) s →
      c ∈ s ∨ ∃ pr ∈ fixes, c ∈ pr.2
  | [], _, _, h => Or.inl h
  | pr :: rest, s, c, h => by
    rcases mem_foldl_pyReplace rest (pyReplace s pr.1 pr.2) c h with h' | ⟨q, hq, hcq⟩
    · rcases mem_pyReplace h' with h'' | h''
      · exact Or.inl h''
      · exact Or.inr ⟨pr, List.mem_cons_self pr rest, h''⟩
    · exact Or.inr ⟨q, List.mem_cons_of_mem pr hq, hcq⟩

theorem typoFixes_lowerFixed : ∀ pr ∈ typoFixes, ∀ c ∈ pr.2, lowerChar c = c := by
  decide

theorem lowerFixed_preprocess (t : Str) :
    ∀ c ∈ preprocess_text t, lowerChar c = c := by
  intro c hc
  unfold preprocess_text at hc
  by_cases ht : t = []
  · rw [if_pos ht] at hc
    exact absurd hc (List.not_mem_nil c)
  · rw [if_neg ht] at hc
    rcases mem_collapseWS hc with h | h
    · subst h; rfl
    · rcases mem_subPunct h with h' | h'
      · subst h'; rfl
      · rcases mem_foldl_pyReplace typoFixes _ c h' with h'' | ⟨pr, hpr, hcpr⟩
        · have h3 : c ∈ lowerStr t := mem_stripStr h''
          simp only [lowerStr, List.mem_map] at h3
          obtain ⟨d, _, hd⟩ := h3
          rw [← hd]
          exact lowerChar_idem d
        · exact typoFixes_lowerFixed pr hpr c hcpr

theorem preprocess_no_punct (t : Str) :
    ∀ c ∈ preprocess_text t, ¬ (c = ',' ∨ c = ';') := by
  intro c hc
  unfold preprocess_text at hc
  by_cases ht : t = []
  · rw [if_pos ht] at hc
    exact absurd hc (List.not_mem_nil c)
  · rw [if_neg ht] at hc
    rcases mem_collapseWS hc with h | h
    · subst h
      rintro (h | h) <;> exact absurd h (by decide)
    · exact subPunct_no_punct _ c h

theorem preprocess_idem_of (t : Str)
    (h1 : ∀ pr ∈ typoFixes, occursIn pr.1 (preprocess_text t) = false)
    (h2 : stripStr (preprocess_text t) = preprocess_text t) :
    preprocess_text (preprocess_text t) = preprocess_text t := by
  by_cases hempty : preprocess_text t = []
  · rw [hempty]
    rfl
  · have hlow : lowerStr (preprocess_text t) = preprocess_text t :=
      lowerStr_eq_self (lowerFixed_preprocess t)
    have hnp : subPunct (preprocess_text t) = preprocess_text t :=
      subPunct_eq_self (preprocess_no_punct t)
    have hfix : typoFixes.foldl (fun x pr => pyReplace x pr.1 pr.2)
        (preprocess_text t) = preprocess_text t :=
      applyFixes_no_occur typoFixes _ h1
    have hcol : collapseWS (preprocess_text t) = preprocess_text t := by
      by_cases ht : t = []
      · rw [ht]
        rfl
      · conv_lhs => rw [preprocess_text, if_neg ht]
        conv_rhs => rw [preprocess_text, if_neg ht]
        exact collapseWS_idem _
    conv_lhs => rw [preprocess_text, if_neg hempty]
    rw [hlow, h2]
    show collapseWS (subPunct (typoFixes.foldl
        (fun x pr => pyReplace x pr.1 pr.2) (preprocess_text t))) = preprocess_text t
    rw [hfix, hnp, hcol]

/-! ### Claim C3 — normalizer idempotence -/

/-- C3 (corrected): `preprocess_text` is NOT idempotent in general (see
`C3_counterexample_mayo`: the typo replacement `mayo → mayonnaise`
reapplies to its own output).  The amended statement: any input whose
normalized form contains no typo-table key and is unchanged by whitespace
stripping is a fixed point of the normalizer. -/
theorem C3_preprocess_idempotent_amended (t : Str)
    (h1 : ∀ pr ∈ typoFixes, occursIn pr.1 (preprocess_text t) = false)
    (h2 : stripStr (preprocess_text t) = preprocess_text t) :
    preprocess_text (preprocess_text t) = preprocess_text t :=
  preprocess_idem_of t h1 h2

/-- C3 counterexample: normalizing the already-normalized `"mayonnaise"`
(the output of normalizing `"mayo"`) yields `"mayonnaisennaise"`, so
idempotence fails as claimed. -/
theorem C3_counterexample_mayo :
    ¬ (preprocess_text (preprocess_text (chars "mayo")) =
       preprocess_text (chars "mayo")) := by
  decide

/-- Witness for C3: the hypotheses hold at `"Big  Mac"` and the amended
theorem applies there. -/
theorem C3_witness :
    preprocess_text (preprocess_text (chars "Big  Mac")) =
      preprocess_text (chars "Big  Mac") :=
  C3_preprocess_idempotent_amended (chars "Big  Mac") (by decide) (by decide)

/-! ### Claim C1 — the sequential pass on `no A no B no C` chains -/

/-- C1 (code bug): on `"no pickles no lettuce no onions"` the extractor
does NOT produce exactly three Remove modifications.  The greedy first
group of the sequential-chain regex absorbs `"pickles no lettuce"` as one
phrase, so the result is four Remove modifications, the first of which is
the merged multi-word phrase the spec says must never appear (the
individual `pickles`/`lettuce` targets are only recovered afterwards by
the standard pass, and `onions` deduplicates). -/
theorem C1_sequential_chain_eval :
    extract_modifications (chars "no pickles no lettuce no onions") =
      [ { type := .REMOVE, item := chars "pickles no lettuce"
        , description := chars "remove pickles no lettuce", price_change := 0 }
      , { type := .REMOVE, item := chars "onions"
        , description := chars "remove onions", price_change := 0 }
      , { type := .REMOVE, item := chars "pickles"
        , description := chars "remove pickles", price_change := 0 }
      , { type := .REMOVE, item := chars "lettuce"
        , description := chars "remove lettuce", price_change := 0 } ] := by
  decide

/-! ### Claim C6 — splitting of captured phrases in the standard pass -/

/-- C6 counterexample: the standard pass records the merged target
`"mayo and ketchup"` (the splitting helper `_process_modification_text`
exists but is never invoked), refuting the claim that every captured
phrase is split on `" and "`/`","`. -/
theorem C6_counterexample_merged_target :
    chars "mayo and ketchup" ∈
      (extract_modifications (chars "with mayo and ketchup")).map
        Modification.item := by
  decide

/-- C6 (corrected): captured phrases are NOT split on `" and "` or `","`;
each becomes a single target after the substrings `"the "`, `"some "`,
`"a "` are removed (anywhere in the phrase, not only leading).
`"with mayo and ketchup"` yields `mayo` (from the lookahead-bounded
pattern) and the single merged target `mayo and ketchup` (from the
end-of-string pattern); `"with the cheese"` yields `cheese` with the
article removed. -/
theorem C6_no_split_amended :
    (extract_modifications (chars "with mayo and ketchup")).map
        (fun m => (m.type, m.item)) =
      [(.ADD, chars "mayo"), (.ADD, chars "mayo and ketchup")]
    ∧ (extract_modifications (chars "with the cheese")).map
        (fun m => (m.type, m.item)) =
      [(.ADD, chars "cheese")] := by
  constructor
  · decide
  · decide

/-! ### Claim C2 — per-line modification validity and pricing -/

/-- C2 (code bug): order lines alias the shared extracted `Modification`
objects, and assembly assigns `mod.price_change` once per matched item the
modification is valid for; the value observable on every aliasing line is
the last assignment.  Here `cheese` is valid for both matched items
(configured deltas 1/2 and 1), and the `Foo Burger` line ends up carrying
price delta 1 — `Bar Wrap`'s configured value — although
`itemFoo.modification_pricing` maps `cheese` to 1/2. -/
theorem C2_cross_line_price_aliasing :
    (parse_order (initState [itemFoo, itemBar])
        (chars "fooburger barwrap extra cheese")).items =
      [ ⟨chars "Foo Burger", 1, none, 5,
          [⟨.EXTRA, chars "cheese", chars "extra cheese", 1⟩], none⟩
      , ⟨chars "Bar Wrap", 1, none, 4,
          [⟨.EXTRA, chars "cheese", chars "extra cheese", 1⟩], none⟩ ]
    ∧ dictLookup itemFoo.modification_pricing (chars "cheese") = some (1 / 2) := by
  constructor
  · decide
  · decide

/-! ### Claim C5 — the price law -/

theorem foldl_add_eq_sum {α : Type} (f : α → ℚ) :
    ∀ (l : List α) (a : ℚ), l.foldl (fun acc x => acc + f x) a = a + (l.map f).sum
  | [], a => by simp
  | x :: xs, a => by
    simp only [List.foldl_cons, List.map_cons, List.sum_cons]
    rw [foldl_add_eq_sum f xs (a + f x), add_assoc]

/-- C5 (confirmed): for every line of every order,
`total_price = (base_price + Σ price deltas) × quantity` exactly (the
embedding uses `ℚ`, matching the exact `Decimal` arithmetic of the
source), and at the order level `subtotal = Σ total_price`,
`tax = subtotal × 0.08`, `total = subtotal + tax`. -/
theorem C5_price_law (o : Order) (li : OrderItem) (h : li ∈ o.items) :
    li.total_price =
      (li.base_price + (li.modifications.map Modification.price_change).sum) *
        li.quantity
    ∧ o.subtotal = (o.items.map OrderItem.total_price).sum
    ∧ o.tax_amount = o.subtotal * (8 / 100)
    ∧ o.total_amount = o.subtotal + o.tax_amount := by
  refine ⟨?_, ?_, rfl, rfl⟩
  · unfold OrderItem.total_price
    rw [foldl_add_eq_sum Modification.price_change li.modifications 0, zero_add]
  · unfold Order.subtotal
    rw [foldl_add_eq_sum OrderItem.total_price o.items 0, zero_add]

/-- Witness for C5 at a concrete two-modification, quantity-3 line. -/
theorem C5_witness :
    (⟨chars "W", 3, none, 5, [⟨.EXTRA, chars "m", chars "extra m", 1 / 2⟩],
        none⟩ : OrderItem).total_price =
      (5 + (([⟨.EXTRA, chars "m", chars "extra m", 1 / 2⟩] : List Modification).map
        Modification.price_change).sum) * 3
    ∧ (⟨[⟨chars "W", 3, none, 5, [⟨.EXTRA, chars "m", chars "extra m", 1 / 2⟩],
          none⟩], none, none⟩ : Order).subtotal =
      ((⟨[⟨chars "W", 3, none, 5, [⟨.EXTRA, chars "m", chars "extra m", 1 / 2⟩],
          none⟩], none, none⟩ : Order).items.map OrderItem.total_price).sum := by
  have h := C5_price_law
    ⟨[⟨chars "W", 3, none, 5, [⟨.EXTRA, chars "m", chars "extra m", 1 / 2⟩], none⟩],
      none, none⟩
    ⟨chars "W", 3, none, 5, [⟨.EXTRA, chars "m", chars "extra m", 1 / 2⟩], none⟩
    (by decide)
  exact ⟨by simpa using h.1, h.2.1⟩

/-! ### Claim C9 — determinism / no hidden mutable state -/

/-- C9 (confirmed): `parse_order` writes no parser attribute (the indexes
are built only in `__init__`), so with the instance state threaded
explicitly a call returns the state unchanged, and a second call on that
state with the same text returns an identical `Order`. -/
theorem C9_determinism (st : ParserSt) (text : Str) :
    (parse_order_st st text).2 = st ∧
    (parse_order_st ((parse_order_st st text).2) text).1 =
      (parse_order_st st text).1 :=
  ⟨rfl, rfl⟩

/-! ### Dictionary lemmas -/

theorem dictLookup_dictInsert {α : Type} :
    ∀ (d : Dict α) (k : Str) (v : α) (k' : Str),
      dictLookup (dictInsert d k v) k' =
        if k = k' then some v else dictLookup d k'
  | [], k, v, k' => by
    simp only [dictInsert, dictLookup]
  | (k₀, v₀) :: rest, k, v, k' => by
    by_cases h0 : k₀ = k
    · subst h0
      simp only [dictInsert, if_pos rfl, dictLookup]
      by_cases h1 : k₀ = k'
      · simp [h1]
      · simp [h1]
    · simp only [dictInsert, if_neg h0, dictLookup]
      by_cases h1 : k₀ = k'
      · subst h1
        have : ¬ k = k₀ := fun h => h0 h.symm
        simp [this]
      · simp only [if_neg h1]
        exact dictLookup_dictInsert rest k v k'

theorem mem_dictInsert {α : Type} :
    ∀ {d : Dict α} {k : Str} {v : α} {p : Str × α},
      p ∈ dictInsert d k v → p ∈ d ∨ p = (k, v)
  | [], k, v, p, h => by
    simp only [dictInsert, List.mem_singleton] at h
    exact Or.inr h
  | (k₀, v₀) :: rest, k, v, p, h => by
    by_cases h0 : k₀ = k
    · simp only [dictInsert, if_pos h0, List.mem_cons] at h
      rcases h with h | h
      · exact Or.inr (h.trans (by rw [h0]))
      · exact Or.inl (List.mem_cons_of_mem _ h)
    · simp only [dictInsert, if_neg h0, List.mem_cons] at h
      rcases h with h | h
      · exact Or.inl (h ▸ List.mem_cons_self _ _)
      · rcases mem_dictInsert h with h' | h'
        · exact Or.inl (List.mem_cons_of_mem _ h')
        · exact Or.inr h'

theorem dictLookup_mem {α : Type} :
    ∀ {d : Dict α} {k : Str} {v : α}, dictLookup d k = some v → (k, v) ∈ d
  | [], _, _, h => by simp [dictLookup] at h
  | (k₀, v₀) :: rest, k, v, h => by
    by_cases h0 : k₀ = k
    · subst h0
      have hv : v₀ = v := by simpa [dictLookup] using h
      exact hv ▸ List.mem_cons_self _ _
    · simp only [dictLookup, if_neg h0] at h
      exact List.mem_cons_of_mem _ (dictLookup_mem h)

/-! ### The keyword index maps a colliding keyword to the last declarer -/

/-- Folding one item's keywords into the index: the lookup of `kw`
becomes `it` when `kw` is one of the item's lowercased keywords. -/
theorem lookup_insert_keywords (it : MenuItemTemplate) :
    ∀ (kws : List Str) (d : Dict MenuItemTemplate) (kw : Str),
      dictLookup (kws.foldl (fun d k => dictInsert d (lowerStr k) it) d) kw =
        if kw ∈ kws.map lowerStr then some it else dictLookup d kw
  | [], d, kw => by simp
  | k :: rest, d, kw => by
    simp only [List.foldl_cons, List.map_cons]
    rw [lookup_insert_keywords it rest (dictInsert d (lowerStr k) it) kw]
    by_cases h1 : kw ∈ rest.map lowerStr
    · rw [if_pos h1, if_pos (List.mem_cons_of_mem _ h1)]
    · rw [if_neg h1, dictLookup_dictInsert]
      by_cases h2 : lowerStr k = kw
      · rw [if_pos h2, if_pos (by rw [← h2]; exact List.mem_cons_self _ _)]
      · rw [if_neg h2, if_neg (by
          intro hmem
          rcases List.mem_cons.mp hmem with h | h
          · exact h2 h.symm
          · exact h1 h)]

/-- The generalized accumulator form of the last-declarer property. -/
theorem buildKeywordIndex_general :
    ∀ (catalog : List MenuItemTemplate) (d : Dict MenuItemTemplate) (kw : Str),
      dictLookup (catalog.foldl
          (fun d it => it.keywords.foldl
            (fun d k => dictInsert d (lowerStr k) it) d) d) kw =
        match (catalog.filter (fun it => kw ∈ it.keywords.map lowerStr)).getLast? with
        | some it => some it
        | none => dictLookup d kw
  | [], d, kw => by simp
  | it :: rest, d, kw => by
    simp only [List.foldl_cons]
    rw [buildKeywordIndex_general rest _ kw]
    by_cases hdecl : kw ∈ it.keywords.map lowerStr
    · have hfil : (it :: rest).filter (fun j => kw ∈ j.keywords.map lowerStr) =
          it :: rest.filter (fun j => kw ∈ j.keywords.map lowerStr) :=
        List.filter_cons_of_pos (by simpa using hdecl)
      cases hrest : (rest.filter (fun j => kw ∈ j.keywords.map lowerStr)).getLast? with
      | some j =>
        have hlast : (it :: rest.filter
            (fun j => kw ∈ j.keywords.map lowerStr)).getLast? = some j := by
          rcases List.getLast?_eq_some_iff.mp hrest with ⟨pre, hpre⟩
          rw [List.getLast?_eq_some_iff]
          exact ⟨it :: pre, by rw [hpre, List.cons_append]⟩
        rw [hfil, hlast]
      | none =>
        have hnil : rest.filter (fun j => kw ∈ j.keywords.map lowerStr) = [] := by
          cases hr : rest.filter (fun j => kw ∈ j.keywords.map lowerStr) with
          | nil => rfl
          | cons a l =>
            rw [hr, List.getLast?_eq_getLast (a :: l) (by simp)] at hrest
            exact absurd hrest (by simp)
        rw [hfil, hnil, List.getLast?_singleton]
        rw [lookup_insert_keywords it it.keywords d kw, if_pos hdecl]
    · have hfil : (it :: rest).filter (fun j => kw ∈ j.keywords.map lowerStr) =
          rest.filter (fun j => kw ∈ j.keywords.map lowerStr) :=
        List.filter_cons_of_neg (by simpa using hdecl)
      rw [hfil, lookup_insert_keywords it it.keywords d kw, if_neg hdecl]

/-! ### Extractor invariants: every size binding was validated against the
item the keyword index maps the keyword to -/

theorem bestSized_fold_spec (ktI : Dict MenuItemTemplate) (st : Str)
    (sf : SizeType) :
    ∀ (l : List (Str × MenuItemTemplate)) (acc : Option Str × Nat),
      (∀ kv ∈ l, kv ∈ ktI) →
      (∀ bk, acc.1 = some bk → ∃ v, (bk, v) ∈ ktI ∧ sf ∈ v.available_sizes) →
      ∀ bk,
        (l.foldl (fun (best : Option Str × Nat) kv =>
          if occursIn kv.1 st ∧ kv.2.available_sizes ≠ [] ∧
             sf ∈ kv.2.available_sizes ∧ kv.1.length > best.2
          then (some kv.1, kv.1.length) else best) acc).1 = some bk →
        ∃ v, (bk, v) ∈ ktI ∧ sf ∈ v.available_sizes
  | [], _, _, hacc, bk, h => hacc bk h
  | kv :: rest, acc, hsub, hacc, bk, h => by
    rw [List.foldl_cons] at h
    refine bestSized_fold_spec ktI st sf rest _
      (fun x hx => hsub x (List.mem_cons_of_mem kv hx)) ?_ bk h
    intro bk' hbk'
    by_cases hcond : occursIn kv.1 st ∧ kv.2.available_sizes ≠ [] ∧
        sf ∈ kv.2.available_sizes ∧ kv.1.length > acc.2
    · rw [if_pos hcond] at hbk'
      simp only [Option.some.injEq] at hbk'
      exact ⟨kv.2, hbk' ▸ hsub kv (List.mem_cons_self kv rest), hcond.2.2.1⟩
    · rw [if_neg hcond] at hbk'
      exact hacc bk' hbk'

theorem bestSizedKeywordIn_spec {ktI : Dict MenuItemTemplate} {st : Str}
    {sf : SizeType} {bk : Str} (h : bestSizedKeywordIn ktI st sf = some bk) :
    ∃ v, (bk, v) ∈ ktI ∧ sf ∈ v.available_sizes :=
  bestSized_fold_spec ktI st sf ktI (none, 0) (fun _ hx => hx)
    (fun _ h' => by cases h') bk h

theorem sizesStep_preserve (st : ParserSt) (words : List Str) (i : Nat)
    (d : Dict SizeType)
    (hd : ∀ (k : Str) (s : SizeType), (k, s) ∈ d →
      ∃ v, (k, v) ∈ st.keyword_to_item ∧ s ∈ v.available_sizes) :
    ∀ (k : Str) (s : SizeType), (k, s) ∈ sizesStep st words d i →
      ∃ v, (k, v) ∈ st.keyword_to_item ∧ s ∈ v.available_sizes := by
  intro k s h
  unfold sizesStep at h
  dsimp only at h
  repeat' split at h
  all_goals try exact hd k s h
  all_goals
    rename_i hbk
    rcases mem_dictInsert h with h' | h'
    · exact hd k s h'
    · rw [Prod.mk.injEq] at h'
      obtain ⟨hk, hs⟩ := h'
      subst hk
      subst hs
      exact bestSizedKeywordIn_spec hbk

theorem extract_sizes_spec (st : ParserSt) (text : Str) :
    ∀ (k : Str) (s : SizeType), dictLookup (extract_sizes st text) k = some s →
      ∃ v, (k, v) ∈ st.keyword_to_item ∧ s ∈ v.available_sizes := by
  have main : ∀ (l : List Nat) (d : Dict SizeType),
      (∀ (k : Str) (s : SizeType), (k, s) ∈ d →
        ∃ v, (k, v) ∈ st.keyword_to_item ∧ s ∈ v.available_sizes) →
      ∀ (k : Str) (s : SizeType), (k, s) ∈ l.foldl (sizesStep st (splitWS text)) d →
        ∃ v, (k, v) ∈ st.keyword_to_item ∧ s ∈ v.available_sizes := by
    intro l
    induction l with
    | nil => intro d hd k s h; exact hd k s h
    | cons i rest ih =>
      intro d hd k s h
      rw [List.foldl_cons] at h
      exact ih _ (sizesStep_preserve st (splitWS text) i d hd) k s h
  intro k s h
  exact main (List.range (splitWS text).length) [] (fun _ _ h' => absurd h'
    (List.not_mem_nil _)) k s (dictLookup_mem h)

/-! ### Quantity-extractor domain invariant -/

theorem best_fold_spec (ktI : Dict MenuItemTemplate) (st : Str) :
    ∀ (l : List (Str × MenuItemTemplate)) (acc : Option Str × Nat),
      (∀ kv ∈ l, kv ∈ ktI) →
      (∀ bk, acc.1 = some bk → ∃ v, (bk, v) ∈ ktI) →
      ∀ bk,
        (l.foldl (fun (best : Option Str × Nat) kv =>
          if occursIn kv.1 st ∧ kv.1.length > best.2
          then (some kv.1, kv.1.length) else best) acc).1 = some bk →
        ∃ v, (bk, v) ∈ ktI
  | [], _, _, hacc, bk, h => hacc bk h
  | kv :: rest, acc, hsub, hacc, bk, h => by
    rw [List.foldl_cons] at h
    refine best_fold_spec ktI st rest _
      (fun x hx => hsub x (List.mem_cons_of_mem kv hx)) ?_ bk h
    intro bk' hbk'
    by_cases hcond : occursIn kv.1 st ∧ kv.1.length > acc.2
    · rw [if_pos hcond] at hbk'
      simp only [Option.some.injEq] at hbk'
      exact ⟨kv.2, hbk' ▸ hsub kv (List.mem_cons_self kv rest)⟩
    · rw [if_neg hcond] at hbk'
      exact hacc bk' hbk'

theorem bestKeywordIn_spec {ktI : Dict MenuItemTemplate} {st : Str} {bk : Str}
    (h : bestKeywordIn ktI st = some bk) : ∃ v, (bk, v) ∈ ktI :=
  best_fold_spec ktI st ktI (none, 0) (fun _ hx => hx)
    (fun _ h' => by cases h') bk h

theorem quantityStep1_preserve (st : ParserSt) (words : List Str) (i : Nat)
    (d : Dict Nat)
    (hd : ∀ (k : Str) (q : Nat), (k, q) ∈ d → ∃ v, (k, v) ∈ st.keyword_to_item) :
    ∀ (k : Str) (q : Nat), (k, q) ∈ quantityStep1 st words d i →
      ∃ v, (k, v) ∈ st.keyword_to_item := by
  intro k q h
  unfold quantityStep1 at h
  dsimp only at h
  repeat' split at h
  all_goals try exact hd k q h
  all_goals
    rename_i hbk
    rcases mem_dictInsert h with h' | h'
    · exact hd k q h'
    · rw [Prod.mk.injEq] at h'
      obtain ⟨hk, _⟩ := h'
      subst hk
      exact bestKeywordIn_spec hbk

theorem quantityStep2_preserve (st : ParserSt) (text : Str) (cq : Str × Nat)
    (d : Dict Nat)
    (hd : ∀ (k : Str) (q : Nat), (k, q) ∈ d → ∃ v, (k, v) ∈ st.keyword_to_item) :
    ∀ (k : Str) (q : Nat), (k, q) ∈ quantityStep2 st text d cq →
      ∃ v, (k, v) ∈ st.keyword_to_item := by
  intro k q h
  unfold quantityStep2 at h
  dsimp only at h
  repeat' split at h
  all_goals try exact hd k q h
  all_goals
    rename_i kv hkv
    rcases mem_dictInsert h with h' | h'
    · exact hd k q h'
    · rw [Prod.mk.injEq] at h'
      obtain ⟨hk, _⟩ := h'
      subst hk
      exact ⟨kv.2, List.mem_of_find?_eq_some hkv⟩

theorem extract_quantities_spec (st : ParserSt) (text : Str) :
    ∀ (k : Str) (q : Nat), dictLookup (extract_quantities st text) k = some q →
      ∃ v, (k, v) ∈ st.keyword_to_item := by
  have main1 : ∀ (l : List Nat) (d : Dict Nat),
      (∀ (k : Str) (q : Nat), (k, q) ∈ d → ∃ v, (k, v) ∈ st.keyword_to_item) →
      ∀ (k : Str) (q : Nat), (k, q) ∈ l.foldl (quantityStep1 st (splitWS text)) d →
        ∃ v, (k, v) ∈ st.keyword_to_item := by
    intro l
    induction l with
    | nil => intro d hd k q h; exact hd k q h
    | cons i rest ih =>
      intro d hd k q h
      rw [List.foldl_cons] at h
      exact ih _ (quantityStep1_preserve st (splitWS text) i d hd) k q h
  have main2 : ∀ (l : List (Str × Nat)) (d : Dict Nat),
      (∀ (k : Str) (q : Nat), (k, q) ∈ d → ∃ v, (k, v) ∈ st.keyword_to_item) →
      ∀ (k : Str) (q : Nat), (k, q) ∈ l.foldl (quantityStep2 st text) d →
        ∃ v, (k, v) ∈ st.keyword_to_item := by
    intro l
    induction l with
    | nil => intro d hd k q h; exact hd k q h
    | cons cq rest ih =>
      intro d hd k q h
      rw [List.foldl_cons] at h
      exact ih _ (quantityStep2_preserve st text cq d hd) k q h
  intro k q h
  exact main2 context_quantities _
    (main1 (List.range (splitWS text).length) []
      (fun _ _ h' => absurd h' (List.not_mem_nil _)))
    k q (dictLookup_mem h)

/-! ### Key uniqueness of dictionaries built by `dictInsert` -/

theorem mem_keys_dictInsert {α : Type} {d : Dict α} {k k' : Str} {v : α}
    (h : k' ∈ (dictInsert d k v).map Prod.fst) :
    k' ∈ d.map Prod.fst ∨ k' = k := by
  rw [List.mem_map] at h
  obtain ⟨p, hp, hk⟩ := h
  rcases mem_dictInsert hp with h' | h'
  · exact Or.inl (hk ▸ List.mem_map_of_mem Prod.fst h')
  · subst h'
    exact Or.inr hk.symm

theorem nodupKeys_dictInsert {α : Type} :
    ∀ {d : Dict α} {k : Str} {v : α},
      (d.map Prod.fst).Nodup → ((dictInsert d k v).map Prod.fst).Nodup
  | [], k, v, _ => by simp [dictInsert]
  | (k₀, v₀) :: rest, k, v, hd => by
    by_cases h0 : k₀ = k
    · simpa only [dictInsert, if_pos h0, List.map_cons] using hd
    · simp only [List.map_cons, List.nodup_cons] at hd
      simp only [dictInsert, if_neg h0, List.map_cons, List.nodup_cons]
      refine ⟨?_, nodupKeys_dictInsert hd.2⟩
      intro hmem
      rcases mem_keys_dictInsert hmem with h' | h'
      · exact hd.1 h'
      · exact h0 h'

theorem lookup_of_mem_nodup {α : Type} :
    ∀ {d : Dict α} {k : Str} {v : α},
      (d.map Prod.fst).Nodup → (k, v) ∈ d → dictLookup d k = some v
  | [], _, _, _, hmem => absurd hmem (List.not_mem_nil _)
  | (k₀, v₀) :: rest, k, v, hnd, hmem => by
    simp only [List.map_cons, List.nodup_cons] at hnd
    rcases List.mem_cons.mp hmem with h | h
    · rw [Prod.mk.injEq] at h
      obtain ⟨hk, hv⟩ := h
      subst hk
      subst hv
      simp [dictLookup]
    · have hne : k₀ ≠ k := by
        intro he
        subst he
        exact hnd.1 (List.mem_map_of_mem Prod.fst h)
      simp only [dictLookup, if_neg hne]
      exact lookup_of_mem_nodup hnd.2 h

theorem nodupKeys_insert_keywords (it : MenuItemTemplate) :
    ∀ (kws : List Str) (d : Dict MenuItemTemplate),
      (d.map Prod.fst).Nodup →
      (((kws.foldl (fun d k => dictInsert d (lowerStr k) it) d)).map Prod.fst).Nodup
  | [], _, hd => hd
  | k :: rest, d, hd => by
    rw [List.foldl_cons]
    exact nodupKeys_insert_keywords it rest _ (nodupKeys_dictInsert hd)

theorem nodupKeys_buildKeywordIndex_aux :
    ∀ (catalog : List MenuItemTemplate) (d : Dict MenuItemTemplate),
      (d.map Prod.fst).Nodup →
      ((catalog.foldl (fun d it => it.keywords.foldl
          (fun d k => dictInsert d (lowerStr k) it) d) d).map Prod.fst).Nodup
  | [], _, hd => hd
  | it :: rest, d, hd => by
    rw [List.foldl_cons]
    exact nodupKeys_buildKeywordIndex_aux rest _
      (nodupKeys_insert_keywords it it.keywords d hd)

theorem nodupKeys_buildKeywordIndex (catalog : List MenuItemTemplate) :
    ((buildKeywordIndex catalog).map Prod.fst).Nodup :=
  nodupKeys_buildKeywordIndex_aux catalog [] (by simp)

/-! ### Provenance of keyword-index entries -/

theorem mem_insert_keywords (it : MenuItemTemplate) :
    ∀ (kws : List Str) (d : Dict MenuItemTemplate) (p : Str × MenuItemTemplate),
      p ∈ kws.foldl (fun d k => dictInsert d (lowerStr k) it) d →
      p ∈ d ∨ ∃ kw ∈ kws, p = (lowerStr kw, it)
  | [], _, _, h => Or.inl h
  | k :: rest, d, p, h => by
    rw [List.foldl_cons] at h
    rcases mem_insert_keywords it rest _ p h with h' | ⟨kw, hkw, hp⟩
    · rcases mem_dictInsert h' with h'' | h''
      · exact Or.inl h''
      · exact Or.inr ⟨k, List.mem_cons_self k rest, h''⟩
    · exact Or.inr ⟨kw, List.mem_cons_of_mem k hkw, hp⟩

theorem mem_buildKeywordIndex_aux :
    ∀ (catalog : List MenuItemTemplate) (d : Dict MenuItemTemplate)
      (p : Str × MenuItemTemplate),
      p ∈ catalog.foldl (fun d it => it.keywords.foldl
          (fun d k => dictInsert d (lowerStr k) it) d) d →
      p ∈ d ∨ ∃ it ∈ catalog, ∃ kw ∈ it.keywords, p = (lowerStr kw, it)
  | [], _, _, h => Or.inl h
  | it :: rest, d, p, h => by
    rw [List.foldl_cons] at h
    rcases mem_buildKeywordIndex_aux rest _ p h with h' | ⟨j, hj, kw, hkw, hp⟩
    · rcases mem_insert_keywords it it.keywords d p h' with h'' | ⟨kw, hkw, hp⟩
      · exact Or.inl h''
      · exact Or.inr ⟨it, List.mem_cons_self it rest, kw, hkw, hp⟩
    · exact Or.inr ⟨j, List.mem_cons_of_mem it hj, kw, hkw, hp⟩

theorem mem_buildKeywordIndex {catalog : List MenuItemTemplate}
    {p : Str × MenuItemTemplate} (h : p ∈ buildKeywordIndex catalog) :
    ∃ it ∈ catalog, ∃ kw ∈ it.keywords, p = (lowerStr kw, it) := by
  rcases mem_buildKeywordIndex_aux catalog [] p h with h' | h'
  · exact absurd h' (List.not_mem_nil p)
  · exact h'

/-! ### Claim C10 — keyword-collision resolution -/

/-- C10 (confirmed): the keyword index maps each (lowercased) keyword to
the LAST catalog item declaring it (last write wins during index
construction), and the size and quantity extractors bind a keyword only
against the index entry: every size binding `k ↦ s` was validated against
`available_sizes` of exactly the item the index maps `k` to, and every
quantity binding's key is a key of the index. -/
theorem C10_collision_last_write (catalog : List MenuItemTemplate) (kw : Str) :
    dictLookup (initState catalog).keyword_to_item kw =
      (catalog.filter (fun it => kw ∈ it.keywords.map lowerStr)).getLast?
    ∧ (∀ (text k : Str) (s : SizeType),
        dictLookup (extract_sizes (initState catalog) text) k = some s →
        ∃ it, dictLookup (initState catalog).keyword_to_item k = some it ∧
          s ∈ it.available_sizes)
    ∧ (∀ (text k : Str) (q : Nat),
        dictLookup (extract_quantities (initState catalog) text) k = some q →
        (dictLookup (initState catalog).keyword_to_item k).isSome) := by
  refine ⟨?_, ?_, ?_⟩
  · have h := buildKeywordIndex_general catalog [] kw
    cases hl : (catalog.filter (fun it => kw ∈ it.keywords.map lowerStr)).getLast? with
    | some it => rw [hl] at h; exact h
    | none => rw [hl] at h; exact h
  · intro text k s h
    obtain ⟨v, hmem, hsize⟩ := extract_sizes_spec (initState catalog) text k s h
    exact ⟨v, lookup_of_mem_nodup (nodupKeys_buildKeywordIndex catalog) hmem, hsize⟩
  · intro text k q h
    obtain ⟨v, hmem⟩ := extract_quantities_spec (initState catalog) text k q h
    have hl : dictLookup (initState catalog).keyword_to_item k = some v :=
      lookup_of_mem_nodup (nodupKeys_buildKeywordIndex catalog) hmem
    rw [hl]
    rfl

/-- Witness for C10: with `zcola` declared by `itemX` then `itemY`, the
index maps it to `itemY`, and a size binding for `zcola` is validated
against `itemY`'s sizes. -/
theorem C10_witness :
    dictLookup (initState [itemX, itemY]).keyword_to_item (chars "zcola") =
      some itemY
    ∧ (∃ it, dictLookup (initState [itemX, itemY]).keyword_to_item
          (chars "zcola") = some it ∧ SizeType.LARGE ∈ it.available_sizes) := by
  constructor
  · exact (C10_collision_last_write [itemX, itemY] (chars "zcola")).1.trans (by decide)
  · exact (C10_collision_last_write [itemX, itemY] (chars "zcola")).2.1
      (chars "large zcola") (chars "zcola") .LARGE (by decide)

/-! ### Generic fold preservation -/

theorem foldl_preserve {α β : Type} {P : β → Prop} {f : β → α → β} :
    ∀ {l : List α} {b : β}, P b → (∀ b' a, a ∈ l → P b' → P (f b' a)) →
      P (l.foldl f b) := by
  intro l
  induction l with
  | nil => intro b hb _; exact hb
  | cons a l ih =>
    intro b hb hstep
    rw [List.foldl_cons]
    exact ih (hstep b a (List.mem_cons_self a l) hb)
      (fun b' a' ha' => hstep b' a' (List.mem_cons_of_mem a ha'))

/-! ### Every matched item comes from the searched item set -/

theorem mem_insertDesc {x p : MenuItemTemplate × ℚ} :
    ∀ {l : List (MenuItemTemplate × ℚ)}, p ∈ insertDesc x l → p = x ∨ p ∈ l
  | [], h => by
    simp only [insertDesc, List.mem_singleton] at h
    exact Or.inl h
  | y :: ys, h => by
    by_cases hc : x.2 > y.2
    · simp only [insertDesc, if_pos hc, List.mem_cons] at h
      rcases h with h | h | h
      · exact Or.inl h
      · exact Or.inr (h ▸ List.mem_cons_self y ys)
      · exact Or.inr (List.mem_cons_of_mem y h)
    · simp only [insertDesc, if_neg hc, List.mem_cons] at h
      rcases h with h | h
      · exact Or.inr (h ▸ List.mem_cons_self y ys)
      · rcases mem_insertDesc h with h' | h'
        · exact Or.inl h'
        · exact Or.inr (List.mem_cons_of_mem y h')

theorem sortDesc_preserve {P : MenuItemTemplate × ℚ → Prop}
    {l : List (MenuItemTemplate × ℚ)} (hl : ∀ p ∈ l, P p) :
    ∀ p ∈ sortDesc l, P p := by
  unfold sortDesc
  refine foldl_preserve
    (P := fun (acc : List (MenuItemTemplate × ℚ)) => ∀ p ∈ acc, P p) ?_ ?_
  · intro p hp
    exact absurd hp (List.not_mem_nil p)
  · intro acc x hx hacc p hp
    rcases mem_insertDesc hp with h | h
    · exact h ▸ hl x hx
    · exact hacc p h

theorem dedupByName_preserve {P : MenuItemTemplate × ℚ → Prop}
    {found : List (MenuItemTemplate × ℚ)} (hf : ∀ p ∈ found, P p) :
    ∀ p ∈ dedupByName found, P p := by
  unfold dedupByName
  intro p hp
  rw [List.mem_map] at hp
  obtain ⟨kv, hkv, hkvp⟩ := hp
  subst hkvp
  revert kv hkv
  refine foldl_preserve
    (P := fun (u : Dict (MenuItemTemplate × ℚ)) => ∀ kv ∈ u, P kv.2) ?_ ?_
  · intro kv hkv
    exact absurd hkv (List.not_mem_nil kv)
  · intro u q hq hu kv hkv
    split at hkv
    · rcases List.mem_append.mp hkv with h | h
      · exact hu kv h
      · rw [List.mem_singleton] at h
        exact h ▸ hf q hq
    · split at hkv
      · rcases mem_dictInsert hkv with h | h
        · exact hu kv h
        · exact h ▸ hf q hq
      · exact hu kv hkv

theorem findPass_preserve {sk : Dict MenuItemTemplate}
    {P : MenuItemTemplate → Prop} (hsk : ∀ kv ∈ sk, P kv.2)
    {found : List (MenuItemTemplate × ℚ)} (hf : ∀ p ∈ found, P p.1)
    (step : List (MenuItemTemplate × ℚ) → Str × MenuItemTemplate →
      List (MenuItemTemplate × ℚ))
    (hstep : ∀ acc kv, kv ∈ sk → step acc kv = acc ∨
      ∃ c : ℚ, step acc kv = acc ++ [(kv.2, c)]) :
    ∀ p ∈ sk.foldl step found, P p.1 := by
  refine foldl_preserve
    (P := fun (acc : List (MenuItemTemplate × ℚ)) => ∀ p ∈ acc, P p.1) hf ?_
  intro acc kv hkv hacc p hp
  rcases hstep acc kv hkv with h | ⟨c, h⟩
  · exact hacc p (h ▸ hp)
  · rw [h, List.mem_append] at hp
    rcases hp with hp | hp
    · exact hacc p hp
    · rw [List.mem_singleton] at hp
      exact hp ▸ hsk kv hkv

theorem find_menu_items_subset (st : ParserSt) (text : Str)
    (ritems : Option (List MenuItemTemplate)) :
    ∀ p ∈ find_menu_items st text ritems, p.1 ∈ ritems.getD st.menu_items := by
  intro p hp
  unfold find_menu_items at hp
  dsimp only at hp
  have hsk : ∀ kv ∈ buildKeywordIndex (ritems.getD st.menu_items),
      kv.2 ∈ ritems.getD st.menu_items := by
    intro kv hkv
    obtain ⟨it, hit, kw, _, hp'⟩ := mem_buildKeywordIndex hkv
    rw [hp']
    exact hit
  have h1 : ∀ q ∈ findPass1 (buildKeywordIndex (ritems.getD st.menu_items)) text [],
      q.1 ∈ ritems.getD st.menu_items := by
    unfold findPass1
    refine findPass_preserve hsk (fun q hq => absurd hq (List.not_mem_nil q)) _ ?_
    intro acc kv _
    dsimp only
    split
    · split
      · split
        · exact Or.inr ⟨95 / 100, rfl⟩
        · exact Or.inl rfl
      · exact Or.inl rfl
    · exact Or.inl rfl
  have h2 : ∀ q ∈ findPass2 (buildKeywordIndex (ritems.getD st.menu_items)) text
      (findPass1 (buildKeywordIndex (ritems.getD st.menu_items)) text []),
      q.1 ∈ ritems.getD st.menu_items := by
    unfold findPass2
    refine findPass_preserve hsk h1 _ ?_
    intro acc kv _
    dsimp only
    split
    · split
      · split
        · exact Or.inr ⟨9 / 10, rfl⟩
        · exact Or.inl rfl
      · exact Or.inl rfl
    · exact Or.inl rfl
  have h3 : ∀ q ∈ (if (findPass2 (buildKeywordIndex (ritems.getD st.menu_items)) text
        (findPass1 (buildKeywordIndex (ritems.getD st.menu_items)) text []) = []
        ∧ ritems = none) then
      findPass3 (buildKeywordIndex (ritems.getD st.menu_items)) (splitWS text)
        (findPass2 (buildKeywordIndex (ritems.getD st.menu_items)) text
          (findPass1 (buildKeywordIndex (ritems.getD st.menu_items)) text []))
      else
      findPass2 (buildKeywordIndex (ritems.getD st.menu_items)) text
        (findPass1 (buildKeywordIndex (ritems.getD st.menu_items)) text [])),
      q.1 ∈ ritems.getD st.menu_items := by
    split
    · unfold findPass3
      refine findPass_preserve hsk h2 _ ?_
      intro acc kv _
      dsimp only
      split
      · split
        · exact Or.inr ⟨6 / 10, rfl⟩
        · exact Or.inl rfl
      · exact Or.inl rfl
    · exact h2
  exact sortDesc_preserve (dedupByName_preserve h3) p hp

/-! ### Restaurant index values are catalog members -/

theorem addToRestaurant_preserve {P : MenuItemTemplate → Prop}
    {d : Dict (List MenuItemTemplate)} {r : Str} {it : MenuItemTemplate}
    (hd : ∀ kv ∈ d, ∀ x ∈ kv.2, P x) (hit : P it) :
    ∀ kv ∈ addToRestaurant d r it, ∀ x ∈ kv.2, P x := by
  intro kv hkv x hx
  unfold addToRestaurant at hkv
  split at hkv
  · rw [List.mem_map] at hkv
    obtain ⟨kv0, hkv0, hkvmap⟩ := hkv
    by_cases hr : kv0.1 = r
    · rw [if_pos hr] at hkvmap
      subst hkvmap
      dsimp only at hx
      rcases List.mem_append.mp hx with h | h
      · exact hd kv0 hkv0 x h
      · rw [List.mem_singleton] at h
        exact h ▸ hit
    · rw [if_neg hr] at hkvmap
      subst hkvmap
      exact hd kv0 hkv0 x hx
  · rcases List.mem_append.mp hkv with h | h
    · exact hd kv h x hx
    · rw [List.mem_singleton] at h
      subst h
      rw [List.mem_singleton] at hx
      exact hx ▸ hit

theorem restaurant_to_items_subset (catalog : List MenuItemTemplate) :
    ∀ kv ∈ (initState catalog).restaurant_to_items, ∀ x ∈ kv.2, x ∈ catalog := by
  show ∀ kv ∈ catalog.foldl
      (fun d it => addToRestaurant d (identify_item_restaurant it) it) [],
    ∀ x ∈ kv.2, x ∈ catalog
  refine foldl_preserve
    (P := fun (d : Dict (List MenuItemTemplate)) => ∀ kv ∈ d, ∀ x ∈ kv.2, x ∈ catalog)
    ?_ ?_
  · intro kv hkv
    exact absurd hkv (List.not_mem_nil kv)
  · intro d it hit hd
    exact addToRestaurant_preserve hd hit

/-- The scoping decision only ever selects catalog members. -/
theorem scopedItems_subset (catalog : List MenuItemTemplate) (clean : Str)
    {l : List MenuItemTemplate}
    (h : scopedItems (initState catalog) clean = some l) :
    ∀ x ∈ l, x ∈ catalog := by
  unfold scopedItems at h
  split at h
  · rename_i r conf heq
    split at h
    · rw [Option.some.injEq] at h
      subst h
      intro x hx
      unfold get_restaurant_menu_items at hx
      cases hl : dictLookup (initState catalog).restaurant_to_items r with
      | none => rw [hl] at hx; exact absurd hx (List.not_mem_nil x)
      | some l' =>
        rw [hl] at hx
        exact restaurant_to_items_subset catalog _ (dictLookup_mem hl) x hx
    · exact absurd h (by simp)
  · exact absurd h (by simp)

/-! ### First-keyword lookup -/

theorem firstKeyLookup_spec {α : Type} :
    ∀ {keys : List Str} {d : Dict α} {v : α},
      firstKeyLookup keys d = some v → ∃ k ∈ keys, dictLookup d k = some v
  | [], _, _, h => by cases h
  | k :: ks, d, v, h => by
    cases hk : dictLookup d k with
    | some w =>
      rw [firstKeyLookup, hk] at h
      rw [Option.some.injEq] at h
      exact ⟨k, List.mem_cons_self k ks, h ▸ hk⟩
    | none =>
      rw [firstKeyLookup, hk] at h
      obtain ⟨k', hk', hl⟩ := firstKeyLookup_spec h
      exact ⟨k', List.mem_cons_of_mem k hk', hl⟩

/-! ### Shape of assembled order lines -/

theorem mem_parse_order_items {st : ParserSt} {text : Str} {li : OrderItem}
    (h : li ∈ (parse_order st text).items) :
    ∃ p ∈ find_menu_items st (preprocess_text text)
        (scopedItems st (preprocess_text text)),
      li.name = p.1.name ∧
      li.size = firstKeyLookup p.1.keywords
        (extract_sizes st (preprocess_text text)) := by
  unfold parse_order at h
  dsimp only at h
  rw [List.mem_map] at h
  obtain ⟨p, hp, hli⟩ := h
  subst hli
  exact ⟨p, hp, rfl, rfl⟩

/-! ### Claim C7 — size validity -/

/-- C7 counterexample: with the colliding keyword `zcola` (declared by
`itemX`, which has no size variants, and later by `itemY`, which has
Large), the `Xsoda Drink` line of the parsed order carries size Large even
though no catalog item of that name has Large among its
`available_sizes` — the extractor validated the keyword against `itemY`,
but assembly binds the size to any matched item sharing the keyword. -/
theorem C7_counterexample_collision :
    ∃ li ∈ (parse_order (initState [itemX, itemY])
        (chars "large zcola xsoda")).items,
      li.size = some SizeType.LARGE ∧
      ∀ it ∈ [itemX, itemY], it.name = li.name →
        SizeType.LARGE ∉ it.available_sizes := by
  decide

/-- C7 (corrected): size validity holds under the additional assumption
that no two distinct catalog items declare the same lowercased keyword;
every line that carries a size then refers to an item whose
`available_sizes` contains it. -/
theorem C7_size_validity_amended (catalog : List MenuItemTemplate) (text : Str)
    (hnc : ∀ i ∈ catalog, ∀ j ∈ catalog, ∀ ki ∈ i.keywords, ∀ kj ∈ j.keywords,
      lowerStr ki = lowerStr kj → i = j) :
    ∀ li ∈ (parse_order (initState catalog) text).items, ∀ s : SizeType,
      li.size = some s →
      ∃ it ∈ catalog, it.name = li.name ∧ s ∈ it.available_sizes := by
  intro li hli s hs
  obtain ⟨p, hp, hname, hsize⟩ := mem_parse_order_items hli
  rw [hsize] at hs
  obtain ⟨k, hk, hlk⟩ := firstKeyLookup_spec hs
  obtain ⟨v, hmem, hsv⟩ :=
    extract_sizes_spec (initState catalog) (preprocess_text text) k s hlk
  obtain ⟨itv, hitv, kw', hkw', hpv⟩ := mem_buildKeywordIndex hmem
  rw [Prod.mk.injEq] at hpv
  obtain ⟨hkk, hvv⟩ := hpv
  subst hvv
  have hpcat : p.1 ∈ catalog := by
    have hsub := find_menu_items_subset (initState catalog) (preprocess_text text)
      (scopedItems (initState catalog) (preprocess_text text)) p hp
    cases hsc : scopedItems (initState catalog) (preprocess_text text) with
    | none => rw [hsc] at hsub; exact hsub
    | some l => rw [hsc] at hsub; exact scopedItems_subset catalog _ hsc p.1 hsub
  have heqk : lowerStr k = lowerStr kw' := by rw [hkk, lowerStr_idem]
  have heq : p.1 = v := hnc p.1 hpcat v hitv k hk kw' hkw' heqk
  exact ⟨p.1, hpcat, hname.symm, heq ▸ hsv⟩

/-- Witness for C7: a collision-free one-item catalog where the `Zfries`
line carries size Large and `Zfries` indeed offers Large. -/
theorem C7_witness :
    ∃ it ∈ [itemZfries],
      it.name = (⟨chars "Zfries", 1, some SizeType.LARGE, 7 / 2, [], none⟩ :
        OrderItem).name ∧ SizeType.LARGE ∈ it.available_sizes :=
  C7_size_validity_amended [itemZfries] (chars "large zfries") (by decide)
    ⟨chars "Zfries", 1, some SizeType.LARGE, 7 / 2, [], none⟩ (by decide)
    SizeType.LARGE (by decide)

/-! ### Claim C4 — restaurant scoping -/

/-- C4 (confirmed): when the detector reports a restaurant with confidence
strictly above 0.3, every line of the parsed order names an item of that
restaurant's index subset; and under scoping the item matcher consists of
tiers 1–2 only (deduplicated and sorted) — the tier-3 fuzzy fallback is
structurally skipped whenever a restaurant subset is supplied. -/
theorem C4_restaurant_scoping (catalog : List MenuItemTemplate) (text : Str)
    (r : Str) (c : ℚ)
    (hdet : detect_restaurant (preprocess_text text) = (some r, c))
    (hc : c > 3 / 10) :
    (∀ li ∈ (parse_order (initState catalog) text).items,
      ∃ it ∈ get_restaurant_menu_items (initState catalog) r, li.name = it.name)
    ∧ ∀ subset : List MenuItemTemplate,
        find_menu_items (initState catalog) (preprocess_text text) (some subset) =
          sortDesc (dedupByName
            (findPass2 (buildKeywordIndex subset) (preprocess_text text)
              (findPass1 (buildKeywordIndex subset) (preprocess_text text) []))) := by
  constructor
  · intro li hli
    obtain ⟨p, hp, hname, _⟩ := mem_parse_order_items hli
    have hsc : scopedItems (initState catalog) (preprocess_text text) =
        some (get_restaurant_menu_items (initState catalog) r) := by
      unfold scopedItems
      rw [hdet]
      exact if_pos hc
    have hsub := find_menu_items_subset (initState catalog) (preprocess_text text)
      (scopedItems (initState catalog) (preprocess_text text)) p hp
    rw [hsc] at hsub
    exact ⟨p.1, hsub, hname⟩
  · intro subset
    unfold find_menu_items
    have hcond : ¬ (findPass2 (buildKeywordIndex subset) (preprocess_text text)
        (findPass1 (buildKeywordIndex subset) (preprocess_text text) []) = []
        ∧ (some subset : Option (List MenuItemTemplate)) = none) := by
      rintro ⟨_, h⟩
      cases h
    dsimp only [Option.getD]
    rw [if_neg hcond]

/-- Witness for C4: `"big mac"` detects McDonald's with confidence
21/40 > 3/10, and the parsed line names an item of the McDonald's subset. -/
theorem C4_witness :
    ∃ it ∈ get_restaurant_menu_items (initState [itemBigMac])
        (chars "McDonald\x27s"),
      (⟨chars "Big Mac", 1, none, 5, [], none⟩ : OrderItem).name = it.name :=
  (C4_restaurant_scoping [itemBigMac] (chars "big mac") (chars "McDonald\x27s")
      (21 / 40) (by decide) (by decide)).1
    ⟨chars "Big Mac", 1, none, 5, [], none⟩ (by decide)

/-! ### Claim C8 — graceful degradation to an empty order -/

/-- C8 (confirmed): `parse_order` is a total function into `Order` (the
embedding is a total Lean function; no code path raises), and whenever the
item matcher finds nothing in the (scoped) catalog the result is a
zero-line order whose subtotal, tax, total and item count are all exactly
zero. -/
theorem C8_graceful_empty (catalog : List MenuItemTemplate) (text : Str)
    (h : find_menu_items (initState catalog) (preprocess_text text)
        (scopedItems (initState catalog) (preprocess_text text)) = []) :
    (parse_order (initState catalog) text).items = []
    ∧ (parse_order (initState catalog) text).subtotal = 0
    ∧ (parse_order (initState catalog) text).tax_amount = 0
    ∧ (parse_order (initState catalog) text).total_amount = 0
    ∧ (parse_order (initState catalog) text).item_count = 0 := by
  have hitems : (parse_order (initState catalog) text).items = [] := by
    unfold parse_order
    dsimp only
    rw [h]
    rfl
  have hsub : (parse_order (initState catalog) text).subtotal = 0 := by
    unfold Order.subtotal
    rw [hitems]
    rfl
  have htax : (parse_order (initState catalog) text).tax_amount = 0 := by
    unfold Order.tax_amount
    rw [hsub, zero_mul]
  refine ⟨hitems, hsub, htax, ?_, ?_⟩
  · unfold Order.total_amount
    rw [hsub, htax, zero_add]
  · unfold Order.item_count
    rw [hitems]
    rfl

/-- Witness for C8 at the spec's Scenario 4 input `"asdkfjasdf"`. -/
theorem C8_witness :
    (parse_order (initState [itemBigMac]) (chars "asdkfjasdf")).items = []
    ∧ (parse_order (initState [itemBigMac]) (chars "asdkfjasdf")).subtotal = 0
    ∧ (parse_order (initState [itemBigMac]) (chars "asdkfjasdf")).tax_amount = 0
    ∧ (parse_order (initState [itemBigMac]) (chars "asdkfjasdf")).total_amount = 0
    ∧ (parse_order (initState [itemBigMac]) (chars "asdkfjasdf")).item_count = 0 :=
  C8_graceful_empty [itemBigMac] (chars "asdkfjasdf") (by decide)
